import Mathlib

/-!
Verification of the chunked spreadsheet transformation engine.

Shallow embedding of the chunked Excel processing core of the
Fixcel data-analysis application, together with proofs about the
partitioning, materialization, transformation, aggregation, routing and
reassembly behaviour described in its specification.

Sources embedded:
- `ChunkedExcelProcessor` (parseExcelInChunks, processChunk,
  applyTransformationToChunk and the per-chunk transformation helpers,
  generateCleanedExcelFromChunks, getTransformationLog);
- `aggregateIssuesAcrossChunks` from the analyze-chunked API route;
- `determineAffectedChunks` from `ChunkedGeminiClient`;
- the sequential per-chunk application loop of the
  apply-chunked-recommendation API route.

Modelling conventions (stated once here, referenced below):
- JavaScript `null` and `undefined` are both modelled as `Cell.null`; the
  code treats them identically everywhere it touches cell values
  (every emptiness filter checks `!== null && !== undefined`, `typeof`
  checks fail for both, and `JSON.stringify` serializes both as `null`
  inside arrays).
- JavaScript numbers are modelled as integers (`Int`).  No claim under
  verification depends on fractional values; the one operation that can
  produce a non-integer (the `mean` fill method) is modelled with exact
  integer division and is not used by any theorem.
- A worksheet is modelled as its cell grid (`List (List Cell)`), the
  in-memory form `XLSX.read` produces; `Cell.null` stands for an absent
  or empty cell.  The sheet range (`!ref`) of a non-empty grid is taken
  to be `rows × max-row-width`, which matches XLSX for grids whose last
  row and widest row end in present cells; an empty grid gets the `A1`
  fallback range of the source (1 row, 1 column).
- Maps (`this.chunks`, `this.processedData`, the aggregation map and the
  frequency object) are modelled as insertion-ordered association lists,
  which is exactly the iteration order JavaScript `Map` and (for
  non-integer-like string keys) plain objects provide.  For plain
  objects, `Object.keys` enumerates integer-like keys first in ascending
  numeric order; `jsObjectKeys` below reproduces that rule.
- Timestamps in the transformation log are not modelled (wall-clock
  reads); a log entry keeps the chunk id, the transformation and the
  status, which is all any claim mentions.
- A thrown JavaScript exception is modelled as `Option.none` of the
  operation's result; functions that cannot throw are total.
-/

/-- A spreadsheet cell value: absent/empty (`null`/`undefined`), string,
number (modelled as an integer) or boolean.  Dates read from XLSX arrive
as numbers or strings and need no separate constructor. -/
inductive Cell where
  | null : Cell
  | str (s : String) : Cell
  | num (n : Int) : Cell
  | bool (b : Bool) : Cell
deriving DecidableEq, Repr

/-- JavaScript `String(v)` on a cell value. -/
def jsString : Cell → String
  | Cell.null => "null"
  | Cell.str s => s
  | Cell.num n => toString n
  | Cell.bool b => if b then "true" else "false"


/-! ### Kernel-computable string helpers

Core `String.trim`, `toLower`, `toUpper`, `splitOn`, `toNat?` operate on
byte positions and do not reduce definitionally; the claims' witnesses
evaluate inside the kernel, so the same operations are defined here over
the character list of the string (identical observable behaviour on the
inputs the source feeds them). -/

/-- `s.trim` (both JS `trim()` and Lean's, on the whitespace the source
data uses). -/
def trimChars (cs : List Char) : List Char :=
  ((cs.dropWhile Char.isWhitespace).reverse.dropWhile Char.isWhitespace).reverse

def jsTrim (s : String) : String := String.mk (trimChars s.data)

/-- ASCII `toLowerCase` / `toUpperCase` (the source only formats ASCII
data; Unicode case mapping is outside the model). -/
def asciiLower (s : String) : String := String.mk (s.data.map Char.toLower)

def asciiUpper (s : String) : String := String.mk (s.data.map Char.toUpper)

/-- The numeric value of a digit string (callers check the digits). -/
def digitsToNat (cs : List Char) : Nat :=
  cs.foldl (fun acc c => acc * 10 + (c.toNat - 48)) 0

/-- `String.toNat?`: some value iff the string is non-empty and all
digits. -/
def parseNatStr (s : String) : Option Nat :=
  if s.data ≠ [] ∧ s.data.all Char.isDigit then some (digitsToNat s.data) else none

/-- `String.prototype.split` with a non-empty string separator, on
character lists (fuelled structural recursion; the fuel is the input
length plus one, which the scan never exhausts). -/
def splitOnSubFuel (sep : List Char) : Nat → List Char → List Char →
    List (List Char)
  | _, [], acc => [acc.reverse]
  | 0, cs, acc => [acc.reverse ++ cs]
  | fuel + 1, c :: rest, acc =>
      if sep.isPrefixOf (c :: rest) then
        acc.reverse :: splitOnSubFuel sep fuel ((c :: rest).drop sep.length) []
      else splitOnSubFuel sep fuel rest (c :: acc)

def jsSplitOnStr (sep : String) (s : String) : List String :=
  (splitOnSubFuel sep.data (s.data.length + 1) s.data []).map String.mk

/-- JavaScript `Number(v)` on a cell value, `none` standing for `NaN`.
Strings are trimmed; an empty (or whitespace-only) string converts to 0;
integer literals (optionally signed) convert to their value.  Fractional,
exponent and radix-prefixed literals are outside the integer cell model
and are treated as unparseable; no theorem below feeds them in. -/
def jsNumber : Cell → Option Int
  | Cell.null => some 0
  | Cell.bool b => some (if b then 1 else 0)
  | Cell.num n => some n
  | Cell.str s =>
      match trimChars s.data with
      | [] => some 0
      | '-' :: rest =>
          if rest ≠ [] ∧ rest.all Char.isDigit then
            some (-(Int.ofNat (digitsToNat rest)))
          else none
      | '+' :: rest =>
          if rest ≠ [] ∧ rest.all Char.isDigit then
            some (Int.ofNat (digitsToNat rest))
          else none
      | t =>
          if t.all Char.isDigit then some (Int.ofNat (digitsToNat t)) else none

/-- The JS emptiness test used throughout the source:
`cell === null || cell === undefined || cell === ""`. -/
def isEmptyCell : Cell → Bool
  | Cell.null => true
  | Cell.str s => s = ""
  | _ => false

/-- Is the cell a JS string (`typeof cell === "string"`)? -/
def isStringCell : Cell → Bool
  | Cell.str _ => true
  | _ => false

/-! ## Insertion-ordered association lists

`Map.get` / `Map.set` / `Map.delete` and plain-object property update.
`alset` replaces the value of an existing key in place (preserving the
key's insertion position, as JS does) and appends a new key at the end. -/

def alget {β : Type} (k : String) : List (String × β) → Option β
  | [] => none
  | (k', v) :: rest => if k' = k then some v else alget k rest

def alset {β : Type} (k : String) (v : β) : List (String × β) → List (String × β)
  | [] => [(k, v)]
  | (k', v') :: rest => if k' = k then (k, v) :: rest else (k', v') :: alset k v rest

def aldel {β : Type} (k : String) : List (String × β) → List (String × β)
  | [] => []
  | (k', v') :: rest => if k' = k then rest else (k', v') :: aldel k rest

/-! ## The tabular document model -/

/-- A grid of cells: the in-memory form of one worksheet (row 0 is the
header row) or of one chunk payload (row 0 is the copied header list). -/
abbrev Grid := List (List Cell)

/-- A workbook: ordered named sheets. -/
abbrev Workbook := List (String × Grid)

/-- Row count of the sheet range: `range.e.r + 1`.  An empty sheet gets
the `"A1"` fallback range of the source, hence one row. -/
def sheetRowsOf (g : Grid) : Nat := max 1 g.length

/-- Column count of the sheet range: `range.e.c + 1`, i.e. the widest
row; at least 1 by the `"A1"` fallback. -/
def widthOf (g : Grid) : Nat := max 1 ((g.map List.length).foldr max 0)

/-- Cell at `(r, c)`; out-of-range or absent cells read as null
(`sheet_to_json`/direct access with `defval`-like null). -/
def cellVal (g : Grid) (r c : Nat) : Cell := (g.getD r []).getD c Cell.null

/-- The header list of a sheet, as built by `parseExcelInChunks`:
for each column of the range, `String(cell.v)` of the row-0 cell when it
is present, else `Column_<n>` (1-based). -/
def headersOf (g : Grid) : List String :=
  (List.range (widthOf g)).map fun c =>
    match (g.getD 0 []).getD c Cell.null with
    | Cell.null => "Column_" ++ toString (c + 1)
    | v => jsString v

/-! ## Chunk metadata and processor state -/

structure ChunkMeta where
  chunkId : String
  startRow : Nat
  endRow : Nat
  totalRows : Nat
  sheetName : String
  headers : List String
  processed : Bool
deriving DecidableEq, Repr

/-- A transformation descriptor: the duck-typed `{type, sheet, column,
method, value, format, targetType, columns, newTableName}` object.
Absent string-valued fields are `none`; absent `value` is `Cell.null`
(JS `undefined`, which the null/undefined convention identifies with
null).  Custom `delimiter` regex sources for `split_multi_value` are
outside the model; the source's default class `[,;|]` is modelled. -/
structure Transformation where
  ttype : String
  sheet : String := ""
  column : Option String := none
  method : String := ""
  value : Cell := Cell.null
  format : String := ""
  targetType : String := ""
  columns : List String := []
  newTableName : String := ""
deriving DecidableEq, Repr

/-- One entry of `this.transformationLog` (timestamp not modelled). -/
structure LogEntry where
  chunkId : String
  transformation : Transformation
  status : String
deriving DecidableEq, Repr

/-- The mutable state of one `ChunkedExcelProcessor` instance. -/
structure ProcState where
  workbook : Option Workbook
  sessionId : String
  chunkSize : Int
  chunks : List (String × ChunkMeta)
  processedData : List (String × Grid)
  transformationLog : List LogEntry
deriving DecidableEq, Repr

/-- A freshly constructed `ChunkedExcelProcessor`. -/
def initState (sid : String) (cs : Int) : ProcState :=
  { workbook := none, sessionId := sid, chunkSize := cs,
    chunks := [], processedData := [], transformationLog := [] }

/-! ## Partitioning (`parseExcelInChunks`) -/

/-- The chunk-metadata list one sheet contributes.

JS: `numChunks = Math.ceil(dataRows / chunkSize)` and a `for` loop over
`chunkIndex < numChunks`.  For positive chunk sizes this is the Nat
ceiling division.  For a negative chunk size `numChunks` is negative and
the loop body never runs.  For chunk size 0 with at least one data row
`numChunks` is `Infinity` and the loop never terminates (modelled as
`none`); with zero data rows it is `NaN` and the loop body never runs. -/
def parseChunksForSheet (sessionId sheetName : String) (g : Grid) (chunkSize : Int) :
    Option (List ChunkMeta) :=
  let sheetRows := sheetRowsOf g
  let dataRows := sheetRows - 1
  if 0 < chunkSize then
    let C := chunkSize.toNat
    some ((List.range ((dataRows + C - 1) / C)).map fun i =>
      { chunkId := sessionId ++ "_" ++ sheetName ++ "_chunk_" ++ toString i
        startRow := 1 + i * C
        endRow := min (1 + i * C + C - 1) (sheetRows - 1)
        totalRows := dataRows
        sheetName := sheetName
        headers := headersOf g
        processed := false })
  else if chunkSize < 0 ∨ dataRows = 0 then some []
  else none

/-- The concatenated chunk lists of all sheets, in sheet order. -/
def addSheetsChunks (sessionId : String) (chunkSize : Int) :
    List (String × Grid) → Option (List ChunkMeta)
  | [] => some []
  | (name, g) :: rest => do
      let mds ← parseChunksForSheet sessionId name g chunkSize
      let more ← addSheetsChunks sessionId chunkSize rest
      pure (mds ++ more)

/-- `parseExcelInChunks`: reads the workbook, creates the chunk metadata
for every sheet and records each under its id in `this.chunks`.
`none` models the non-terminating chunk-size-0 loop. -/
def parseExcelInChunks (s : ProcState) (wb : Workbook) :
    Option (ProcState × List ChunkMeta) := do
  let mds ← addSheetsChunks s.sessionId s.chunkSize wb
  pure ({ s with
            workbook := some wb
            chunks := mds.foldl (fun m md => alset md.chunkId md m) s.chunks },
        mds)

/-! ## Materialization (`processChunk`) -/

/-- The worksheet of a sheet name (`this.workbook.Sheets[sheetName]`). -/
def wbSheet (wb : Workbook) (name : String) : Grid :=
  (alget name wb).getD []

/-- The grid `processChunk` builds for one chunk: the metadata's header
list as first row, then for each row of `[startRow, endRow]` one cell
per header column (`cell ? cell.v : null`). -/
def readChunkPayload (wb : Workbook) (md : ChunkMeta) : Grid :=
  (md.headers.map Cell.str) ::
    (List.range (md.endRow + 1 - md.startRow)).map fun j =>
      (List.range md.headers.length).map fun c =>
        cellVal (wbSheet wb md.sheetName) (md.startRow + j) c

/-- `processChunk`: throws (`none`) when the chunk id is unknown or no
workbook is loaded; otherwise re-reads the chunk's rows from the source
worksheet, stores the payload under the chunk id (overwriting any
previous entry) and marks the metadata processed. -/
def processChunk (s : ProcState) (cid : String) : Option (ProcState × Grid) :=
  match alget cid s.chunks, s.workbook with
  | some md, some wb =>
      let payload := readChunkPayload wb md
      some ({ s with
                processedData := alset cid payload s.processedData
                chunks := alset cid { md with processed := true } s.chunks },
            payload)
  | _, _ => none

/-- `clearProcessedChunk`: drops the payload entry only. -/
def clearProcessedChunk (s : ProcState) (cid : String) : ProcState :=
  { s with processedData := aldel cid s.processedData }

/-! ## String helpers used by the transformations -/

/-- Character of the JS word class `\w` (`[A-Za-z0-9_]`). -/
def isWordChar (c : Char) : Bool :=
  (('a' ≤ c ∧ c ≤ 'z') ∨ ('A' ≤ c ∧ c ≤ 'Z') ∨ ('0' ≤ c ∧ c ≤ '9') ∨ c = '_')

/-- `cell.replace(/\w\S*/g, txt => txt.charAt(0).toUpperCase() +
txt.substr(1).toLowerCase())`: each maximal match starts at a word
character and extends over the following non-space characters; the first
character is upper-cased and the rest lower-cased.  The boolean tracks
whether the scanner is inside a match. -/
def titleCaseChars : Bool → List Char → List Char
  | _, [] => []
  | inTok, c :: rest =>
      if c.isWhitespace then c :: titleCaseChars false rest
      else if inTok then c.toLower :: titleCaseChars true rest
      else if isWordChar c then c.toUpper :: titleCaseChars true rest
      else c :: titleCaseChars false rest

def titleCase (s : String) : String := String.mk (titleCaseChars false s.data)

/-- `cell.trim().replace(/\s+/g, " ")`: trim, then collapse every run of
whitespace to a single space.  The boolean remembers whether the
previous character was whitespace. -/
def collapseWsChars : Bool → List Char → List Char
  | _, [] => []
  | prevWs, c :: rest =>
      if c.isWhitespace then
        (if prevWs then [] else [' ']) ++ collapseWsChars true rest
      else c :: collapseWsChars false rest

def trimCollapse (s : String) : String :=
  String.mk (collapseWsChars false (trimChars s.data))

/-- `cell.replace(/\D/g, "")`: keep the digits. -/
def digitsOf (s : String) : List Char := s.data.filter Char.isDigit

/-- The phone reformat: used only when exactly 10 digits remain. -/
def formatPhone (ds : List Char) : String :=
  "(" ++ String.mk (ds.take 3) ++ ") " ++ String.mk ((ds.drop 3).take 3)
    ++ "-" ++ String.mk (ds.drop 6)

/-- Does the string match the default split pattern `[,;|]`? -/
def hasDelim (s : String) : Bool := s.data.any (fun c => c = ',' ∨ c = ';' ∨ c = '|')

/-- `cellValue.split(/[,;|]/)`: split on every occurrence of a class
character (adjacent delimiters produce empty segments, as in JS). -/
def splitOnDelims (acc : List Char) : List Char → List String
  | [] => [String.mk acc.reverse]
  | c :: rest =>
      if c = ',' ∨ c = ';' ∨ c = '|' then
        String.mk acc.reverse :: splitOnDelims [] rest
      else splitOnDelims (c :: acc) rest

/-- `.split(...).map(v => v.trim()).filter(v => v)`. -/
def splitTokens (s : String) : List String :=
  ((splitOnDelims [] s.data).map jsTrim).filter (fun v => v ≠ "")

/-- ISO `YYYY-MM-DD` validity (month 1-12, day within the month, with
the Gregorian leap rule), the one `new Date(string)` input family whose
parse is specified; see `jsDateIso`. -/
def isLeapYear (y : Nat) : Bool := (y % 4 = 0 ∧ y % 100 ≠ 0) ∨ y % 400 = 0

def daysInMonth (y m : Nat) : Nat :=
  if m = 2 then (if isLeapYear y then 29 else 28)
  else if m = 4 ∨ m = 6 ∨ m = 9 ∨ m = 11 then 30
  else 31

def isIsoDate (s : String) : Bool :=
  match jsSplitOnStr "-" s with
  | [ys, ms, ds] =>
      ys.length = 4 ∧ ms.length = 2 ∧ ds.length = 2 ∧
      ys.data.all Char.isDigit ∧ ms.data.all Char.isDigit ∧ ds.data.all Char.isDigit ∧
      1 ≤ digitsToNat ms.data ∧ digitsToNat ms.data ≤ 12 ∧
      1 ≤ digitsToNat ds.data ∧
      digitsToNat ds.data ≤ daysInMonth (digitsToNat ys.data) (digitsToNat ms.data)
  | _ => false

/-- `new Date(cell)` followed by `toISOString().split("T")[0]`.  A valid
ISO date-only string parses as UTC midnight and round-trips to itself.
Every other input family (locale-dependent strings, epoch numbers) is
implementation-defined or irrelevant to the claims and is modelled as an
invalid date (`none`, i.e. the cell is left unchanged). -/
def jsDateIso : Cell → Option String
  | Cell.str s => if isIsoDate s then some s else none
  | _ => none

/-! ## Per-chunk transformations -/

/-- `headers.indexOf(transformation.column)` on a payload's row 0 (whose
entries are the metadata's header strings).  `none` models `-1`; an
absent column field (`indexOf(undefined)`) also gives `-1`. -/
def headerIndex (g : Grid) (col : Option String) : Option Nat :=
  match col with
  | none => none
  | some c => (g.getD 0 []).findIdx? (fun cell => cell = Cell.str c)

/-- JS assignment `row[ci] = v`: in-range indices are overwritten;
past-the-end assignment extends the array, reading the holes as null. -/
def jsSetCell (row : List Cell) (ci : Nat) (v : Cell) : List Cell :=
  if ci < row.length then row.set ci v
  else row ++ List.replicate (ci - row.length) Cell.null ++ [v]

/-- `row.splice(start, 1)` for an `Int` start index: a negative start
counts from the end (clamped at 0); a start beyond the length removes
nothing. -/
def jsSplice1 (row : List Cell) (idx : Int) : List Cell :=
  row.eraseIdx (if idx < 0 then (row.length + idx).toNat else idx.toNat)

/-- `Array.prototype.join("|")`: null/undefined entries become the empty
string, every other entry its `String(...)` form. -/
def jsJoin (cells : List Cell) : String :=
  String.intercalate "|" (cells.map fun c =>
    match c with
    | Cell.null => ""
    | v => jsString v)

/-- Reading `row[idx]` for an `Int` index (`-1` reads `undefined`). -/
def jsIndex (row : List Cell) (idx : Int) : Cell :=
  if idx < 0 then Cell.null else row.getD idx.toNat Cell.null

/-- `fillMissingValuesInChunk`'s frequency object for the `mode` method:
`frequency[String(cell)] = (frequency[String(cell)] || 0) + 1`. -/
def freqStep (m : List (String × Nat)) (c : Cell) : List (String × Nat) :=
  let k := jsString c
  match alget k m with
  | some n => alset k (n + 1) m
  | none => m ++ [(k, 1)]

def buildFrequency (columnData : List Cell) : List (String × Nat) :=
  columnData.foldl freqStep []

/-- Is the string a JS array-index property key: the canonical decimal
form of a natural number below `2^32 - 1`? -/
def isArrayIndexKey (s : String) : Bool :=
  match parseNatStr s with
  | some n => toString n = s ∧ n < 4294967295
  | none => false

/-- `Object.keys` enumeration order on a plain object: array-index keys
first in ascending numeric order, then the remaining keys in insertion
order. -/
def jsObjectKeys {β : Type} (m : List (String × β)) : List String :=
  let ks := m.map (·.1)
  (ks.filter isArrayIndexKey).insertionSort
      (fun a b => (parseNatStr a).getD 0 ≤ (parseNatStr b).getD 0)
    ++ ks.filter (fun k => ¬ isArrayIndexKey k)

/-- `Object.entries` enumeration order on a plain object: entries whose
keys are array-index keys first in ascending numeric key order, then
the remaining entries in insertion order. -/
def jsObjectEntries {β : Type} (m : List (String × β)) : List (String × β) :=
  (m.filter (fun kv => isArrayIndexKey kv.1)).insertionSort
      (fun a b => (parseNatStr a.1).getD 0 ≤ (parseNatStr b.1).getD 0)
    ++ m.filter (fun kv => ¬ isArrayIndexKey kv.1)

/-- `Object.keys(frequency).reduce((a, b) => frequency[a] > frequency[b]
? a : b)`; `none` models the `TypeError` of reducing an empty key list
(unreachable, since the caller guards on non-empty column data). -/
def modeReduce (freq : List (String × Nat)) : Option String :=
  match jsObjectKeys freq with
  | [] => none
  | k :: ks =>
      some (ks.foldl
        (fun a b => if (alget a freq).getD 0 > (alget b freq).getD 0 then a else b) k)

/-- The numeric values of the parseable column entries, sorted
ascending (`.filter(c => !isNaN(Number(c))).map(Number).sort((a, b) =>
a - b)`). -/
def numericSorted (columnData : List Cell) : List Int :=
  (columnData.filterMap jsNumber).insertionSort (fun a b => a ≤ b)

/-- The fill value `fillMissingValuesInChunk` computes from the
transformation and the non-empty column data. -/
def computeFillValue (t : Transformation) (columnData : List Cell) : Cell :=
  if t.method = "median" ∧ columnData ≠ [] then
    let numbers := numericSorted columnData
    if numbers ≠ [] then Cell.num (numbers.getD (numbers.length / 2) 0) else Cell.num 0
  else if t.method = "mean" ∧ columnData ≠ [] then
    let numbers := columnData.filterMap jsNumber
    if numbers ≠ [] then Cell.num (numbers.sum / numbers.length) else Cell.num 0
  else if t.method = "mode" ∧ columnData ≠ [] then
    match modeReduce (buildFrequency columnData) with
    | some k => Cell.str k
    | none => Cell.null
  else t.value

/-- `fillMissingValuesInChunk`: no-op when the column is absent from the
payload's header row; otherwise replaces every empty cell of the column
(header row excluded) with the computed fill value. -/
def fillMissingPayload (t : Transformation) (g : Grid) : Grid :=
  match headerIndex g t.column with
  | none => g
  | some ci =>
      match g with
      | [] => []
      | headerRow :: dataRows =>
          let columnData :=
            (dataRows.map (fun row => row.getD ci Cell.null)).filter
              (fun c => ¬ isEmptyCell c)
          let fillValue := computeFillValue t columnData
          headerRow :: dataRows.map (fun row =>
            if isEmptyCell (row.getD ci Cell.null) then jsSetCell row ci fillValue
            else row)

/-- `removeDuplicatesInChunk`: keep the first occurrence of each data
row; `JSON.stringify` equality coincides with structural equality of
cell rows (its encoding is injective on the cell domain, with null and
undefined both serialized as `null`). -/
def dedupeRows (seen : List (List Cell)) : List (List Cell) → List (List Cell)
  | [] => []
  | r :: rest =>
      if r ∈ seen then dedupeRows seen rest else r :: dedupeRows (r :: seen) rest

def removeDuplicatesPayload (g : Grid) : Grid :=
  match g with
  | [] => []
  | headerRow :: dataRows => headerRow :: dedupeRows [] dataRows

/-- `standardizeFormatInChunk`: rewrites the string cells of the column
according to the format; unknown formats and non-string cells are left
unchanged; `phone` only rewrites when exactly 10 digits remain. -/
def standardizeCell (format : String) (s : String) : Cell :=
  if format = "lowercase" then Cell.str (asciiLower s)
  else if format = "uppercase" then Cell.str (asciiUpper s)
  else if format = "title_case" then Cell.str (titleCase s)
  else if format = "email" then Cell.str (jsTrim (asciiLower s))
  else if format = "phone" then
    let cleaned := digitsOf s
    if cleaned.length = 10 then Cell.str (formatPhone cleaned) else Cell.str s
  else Cell.str s

def standardizeFormatPayload (t : Transformation) (g : Grid) : Grid :=
  match headerIndex g t.column with
  | none => g
  | some ci =>
      match g with
      | [] => []
      | headerRow :: dataRows =>
          headerRow :: dataRows.map (fun row =>
            match row.getD ci Cell.null with
            | Cell.str s => jsSetCell row ci (standardizeCell t.format s)
            | _ => row)

/-- `fixDataTypesInChunk`: coerces the non-empty cells of the column to
the target type; failed coercions leave the cell unchanged. -/
def fixTypeCell (targetType : String) (c : Cell) : Cell :=
  if targetType = "number" then
    match jsNumber c with
    | some n => Cell.num n
    | none => c
  else if targetType = "date" then
    match jsDateIso c with
    | some d => Cell.str d
    | none => c
  else if targetType = "string" then Cell.str (jsString c)
  else c

def fixDataTypesPayload (t : Transformation) (g : Grid) : Grid :=
  match headerIndex g t.column with
  | none => g
  | some ci =>
      match g with
      | [] => []
      | headerRow :: dataRows =>
          headerRow :: dataRows.map (fun row =>
            let c := row.getD ci Cell.null
            if isEmptyCell c then row
            else jsSetCell row ci (fixTypeCell t.targetType c))

/-- `trimWhitespaceInChunk`. -/
def trimWhitespacePayload (t : Transformation) (g : Grid) : Grid :=
  match headerIndex g t.column with
  | none => g
  | some ci =>
      match g with
      | [] => []
      | headerRow :: dataRows =>
          headerRow :: dataRows.map (fun row =>
            match row.getD ci Cell.null with
            | Cell.str s => jsSetCell row ci (Cell.str (trimCollapse s))
            | _ => row)

/-- One main-table row of `normalizeDataInChunk`: `mainRow[idx]` is set
to the chunk row id for the first column index, and `splice(idx, 1)` is
run for each further index (with the stale original indices, exactly as
the source does). -/
def normalizeMainRow (row : List Cell) (columnIndices : List Int)
    (chunkRowId : String) : List Cell :=
  (columnIndices.enum.foldl
    (fun r (p : Nat × Int) =>
      if p.1 = 0 then
        (if p.2 < 0 then r else jsSetCell r p.2.toNat (Cell.str chunkRowId))
      else jsSplice1 r p.2)
    row)

/-- `normalizeDataInChunk`: rewrites the chunk payload (keeping the
original header row) and stores the per-chunk normalized rows under the
key `<chunkId>_normalized_<newTableName>`.  The chunk row ids are
`<chunkId>_<rowIndex + 1>` — unique only within the chunk. -/
def normalizeDataInChunkFn (s : ProcState) (cid : String) (t : Transformation)
    (g : Grid) : ProcState :=
  match g with
  | [] => s
  | headerRow :: dataRows =>
      let columnIndices : List Int := t.columns.map (fun col =>
        match (headerRow.findIdx? (fun cell => cell = Cell.str col)) with
        | some i => (i : Int)
        | none => -1)
      let normalizedData := dataRows.enum.map (fun (p : Nat × List Cell) =>
        Cell.str (cid ++ "_" ++ toString (p.1 + 1)) ::
          columnIndices.map (jsIndex p.2))
      let mainTableData := dataRows.enum.map (fun (p : Nat × List Cell) =>
        normalizeMainRow p.2 columnIndices (cid ++ "_" ++ toString (p.1 + 1)))
      let pd1 := alset cid (headerRow :: mainTableData) s.processedData
      let normalizedHeaders := Cell.str "ID" :: t.columns.map Cell.str
      let key := cid ++ "_normalized_" ++ t.newTableName
      { s with processedData := alset key (normalizedHeaders :: normalizedData) pd1 }

/-- Expansion of one row by `splitMultiValueInChunk`: a string cell that
matches the delimiter class is split; each non-empty trimmed token
yields a copy of the row; a row whose token list is empty disappears. -/
def expandRow (ci : Nat) (row : List Cell) : List (List Cell) :=
  match row.getD ci Cell.null with
  | Cell.str s =>
      if hasDelim s then
        (splitTokens s).map (fun v => jsSetCell row ci (Cell.str v))
      else [row]
  | _ => [row]

/-- `splitMultiValueInChunk`: for each listed column present in the
headers, the stored payload is overwritten with the expansion of the
*original* data rows on that column (the source captures `dataRows`
once, so each pass discards the previous pass's result and the last
present column wins). -/
def splitMultiValuePayload (t : Transformation) (g : Grid) : Grid :=
  match g with
  | [] => []
  | headerRow :: dataRows =>
      t.columns.foldl
        (fun current col =>
          match headerRow.findIdx? (fun cell => cell = Cell.str col) with
          | none => current
          | some ci => headerRow :: dataRows.flatMap (expandRow ci))
        (headerRow :: dataRows)

/-! ## Transformation dispatch (`applyTransformationToChunk`) -/

/-- Store a new payload for a chunk id. -/
def updatePayload (s : ProcState) (cid : String) (g : Grid) : ProcState :=
  { s with processedData := alset cid g s.processedData }

/-- `applyTransformationToChunk`: returns silently (no log entry) when
the chunk's payload is absent or has fewer than 2 rows; otherwise
dispatches on the transformation type — unrecognized types fall through
the switch unchanged — and appends a `completed` log entry. -/
def applyTransformationToChunk (s : ProcState) (cid : String)
    (t : Transformation) : ProcState :=
  match alget cid s.processedData with
  | none => s
  | some g =>
      if g.length < 2 then s
      else
        let s' :=
          if t.ttype = "fill_missing" then updatePayload s cid (fillMissingPayload t g)
          else if t.ttype = "remove_duplicates" then
            updatePayload s cid (removeDuplicatesPayload g)
          else if t.ttype = "standardize_format" then
            updatePayload s cid (standardizeFormatPayload t g)
          else if t.ttype = "fix_data_types" then
            updatePayload s cid (fixDataTypesPayload t g)
          else if t.ttype = "trim_whitespace" then
            updatePayload s cid (trimWhitespacePayload t g)
          else if t.ttype = "normalize_data" then normalizeDataInChunkFn s cid t g
          else if t.ttype = "split_multi_value" then
            updatePayload s cid (splitMultiValuePayload t g)
          else s
        { s' with transformationLog :=
            s'.transformationLog ++
              [{ chunkId := cid, transformation := t, status := "completed" }] }

/-! ## Reassembly (`generateCleanedExcelFromChunks`) -/

/-- Does a processed-data key contain the `_normalized_` marker
(`dataKey.includes("_normalized_")`)? -/
def hasNormalizedMarker (k : String) : Bool :=
  (jsSplitOnStr "_normalized_" k).length > 1

/-- `dataKey.split("_normalized_")[1]`. -/
def normalizedTableName (k : String) : String :=
  (jsSplitOnStr "_normalized_" k).getD 1 ""

/-- The per-sheet accumulation loop: for each chunk (in insertion
order) that is processed and still has a payload, initialize the sheet
with the metadata's header row on first contact and append the
payload's data rows. -/
def gatherSheets (pd : List (String × Grid)) :
    List (String × ChunkMeta) → List (String × Grid) → List (String × Grid)
  | [], acc => acc
  | (cid, md) :: rest, acc =>
      if md.processed then
        match alget cid pd with
        | none => gatherSheets pd rest acc
        | some chunkData =>
            let cur := (alget md.sheetName acc).getD [md.headers.map Cell.str]
            gatherSheets pd rest (alset md.sheetName (cur ++ chunkData.drop 1) acc)
      else gatherSheets pd rest acc

/-- `generateCleanedExcelFromChunks`: throws (`none`) without a loaded
workbook; otherwise reassembles each sheet from its processed chunks
into the plain object `sheetData`, emits its sheets in the
`Object.entries` enumeration order (array-index-like sheet names first
in ascending numeric order, then first-contact insertion order), and
appends one sheet per `_normalized_` processed-data entry (the
processed data is a `Map`, so those keep insertion order).  The output
workbook models the written buffer (`aoa_to_sheet` round-trips the
grids). -/
def generateCleanedExcelFromChunks (s : ProcState) : Option Workbook :=
  match s.workbook with
  | none => none
  | some _ =>
      let sheetData := gatherSheets s.processedData s.chunks []
      let normSheets :=
        (s.processedData.filter (fun kv => hasNormalizedMarker kv.1)).map
          (fun kv => (normalizedTableName kv.1, kv.2))
      some (jsObjectEntries sheetData ++ normSheets)

/-! ## Pipelines used by the API routes -/

/-- Materialize a list of chunk ids in order (the analyze loop's
`processChunk` calls); `none` if any call throws. -/
def processChunksList (s : ProcState) : List String → Option ProcState
  | [] => some s
  | cid :: rest =>
      match processChunk s cid with
      | none => none
      | some (s', _) => processChunksList s' rest

/-- The sequential branch of the apply-chunked-recommendation route:
for each affected chunk, `processChunk` (a fresh materialization) then
`applyTransformationToChunk`. -/
def applyChunkedSequential (s : ProcState) (t : Transformation) :
    List String → Option ProcState
  | [] => some s
  | cid :: rest =>
      match processChunk s cid with
      | none => none
      | some (s', _) => applyChunkedSequential (applyTransformationToChunk s' cid t) t rest

/-- Parse a workbook into chunks, materialize every chunk, and
reassemble without applying any transformation. -/
def chunkedRoundTrip (sid : String) (cs : Int) (wb : Workbook) : Option Workbook := do
  let (s1, _) ← parseExcelInChunks (initState sid cs) wb
  let s2 ← processChunksList s1 (s1.chunks.map (·.1))
  generateCleanedExcelFromChunks s2

/-! ## Chunk routing (`determineAffectedChunks`) -/

/-- The fields of a `ChunkedRecommendation` that routing consults. -/
structure RecTarget where
  targetSheet : Option String := none
  targetColumn : Option String := none
deriving DecidableEq, Repr

/-- JS truthiness of an optional string field (absent and `""` are both
falsy). -/
def truthy (o : Option String) : Option String :=
  match o with
  | some "" => none
  | x => x

/-- `ChunkedGeminiClient.determineAffectedChunks`: when a target sheet
is set, every chunk of that sheet (the column is not consulted); else
when a target column is set, every chunk whose header list contains it;
else all chunks — in chunk creation order. -/
def determineAffectedChunks (rec : RecTarget) (chunks : List ChunkMeta) : List String :=
  match truthy rec.targetSheet with
  | some s => (chunks.filter (fun c => c.sheetName = s)).map (·.chunkId)
  | none =>
      match truthy rec.targetColumn with
      | some col => (chunks.filter (fun c => col ∈ c.headers)).map (·.chunkId)
      | none => chunks.map (·.chunkId)

/-- Modelled from the claim's words, for comparison with
`determineAffectedChunks`: the chunks whose sheet matches the target
sheet and — when a target column is set — whose header list contains
that column, in creation order. -/
def claimAffectedChunks (rec : RecTarget) (chunks : List ChunkMeta) : List String :=
  (chunks.filter (fun c =>
    decide (truthy rec.targetSheet = some c.sheetName) &&
      (match truthy rec.targetColumn with
       | some col => decide (col ∈ c.headers)
       | none => true))).map (·.chunkId)

/-! ## Issue aggregation (`aggregateIssuesAcrossChunks`) -/

/-- A `DataQualityIssue`; `examples` is optional because duplicate-row
issues are emitted without the field. -/
structure Issue where
  itype : String
  severity : String
  sheet : String
  column : Option String := none
  count : Nat
  description : String
  examples : Option (List String) := none
deriving DecidableEq, Repr

/-- The aggregation key `` `${issue.type}_${issue.sheet}_${issue.column
|| "global"}` ``. -/
def joinKey (i : Issue) : String :=
  i.itype ++ "_" ++ i.sheet ++ "_" ++ ((truthy i.column).getD "global")

/-- Merging one further issue of the same key into the group's
accumulated issue. -/
def mergeIssue (ex incoming : Issue) : Issue :=
  { ex with
      count := ex.count + incoming.count
      description := ex.description ++ " (aggregated across chunks)"
      examples :=
        match incoming.examples with
        | none => ex.examples
        | some es => some ((ex.examples.getD [] ++ es).take 5) }

/-- One step of the aggregation fold over the issue map. -/
def aggStep (m : List (String × Issue)) (i : Issue) : List (String × Issue) :=
  match alget (joinKey i) m with
  | some ex => alset (joinKey i) (mergeIssue ex i) m
  | none => m ++ [(joinKey i, i)]

/-- `severityOrder` (unknown severities never occur; their JS comparator
value is `NaN`, modelled as rank 0). -/
def sevRank (s : String) : Nat :=
  if s = "high" then 3 else if s = "medium" then 2 else if s = "low" then 1 else 0

/-- The descending-severity preorder of the final sort. -/
def sevGE (a b : Issue) : Prop := sevRank b.severity ≤ sevRank a.severity

instance : DecidableRel sevGE := fun a b => Nat.decLe _ _

instance : IsTotal Issue sevGE :=
  ⟨fun a b => Nat.le_total (sevRank b.severity) (sevRank a.severity)⟩

instance : IsTrans Issue sevGE :=
  ⟨fun _ _ _ hab hbc => le_trans hbc hab⟩

/-- The final severity sort.  JS `Array.prototype.sort` is stable and
sorts descending under the comparator
`severityOrder[b.severity] - severityOrder[a.severity]`; a stable sort
by a total preorder is unique, so the stable `insertionSort` reproduces
it exactly. -/
def sortBySeverityDesc (l : List Issue) : List Issue :=
  l.insertionSort sevGE

/-- `aggregateIssuesAcrossChunks`. -/
def aggregateIssuesAcrossChunks (allIssues : List Issue) : List Issue :=
  sortBySeverityDesc ((allIssues.foldl aggStep []).map (·.2))

/-! ## Basic association-list lemmas -/

/-! ## Concrete example inputs and specification-side constructions used by the theorems -/


def exWb : Workbook := [("S", [[Cell.str "A"], [Cell.null], [Cell.num 5]])]


def exFill : Transformation :=
  { ttype := "fill_missing", column := some "A", value := Cell.str "X" }


/-- The state after parsing `exWb` with chunk size 10. -/
def exS1 : ProcState :=
  ((parseExcelInChunks (initState "s" 10) exWb).map Prod.fst).getD (initState "s" 10)


/-- The state after materializing the single chunk. -/
def exS2 : ProcState :=
  ((processChunk exS1 "s_S_chunk_0").map Prod.fst).getD exS1


/-- The state after additionally filling the missing cell with `"X"`. -/
def exS3 : ProcState := applyTransformationToChunk exS2 "s_S_chunk_0" exFill


def exSplitWb : Workbook := [("S", [[Cell.str "A"], [Cell.str ","]])]


def exSplitT : Transformation := { ttype := "split_multi_value", columns := ["A"] }


def exSplit1 : ProcState :=
  ((parseExcelInChunks (initState "s" 1000) exSplitWb).map Prod.fst).getD
    (initState "s" 1000)


def exSplit2 : ProcState :=
  ((processChunk exSplit1 "s_S_chunk_0").map Prod.fst).getD exSplit1


/-- After parsing, materializing and splitting on the cell `","` (whose
tokens all trim away), the chunk's payload has shrunk to the header
row alone. -/
def exSplit3 : ProcState :=
  applyTransformationToChunk exSplit2 "s_S_chunk_0" exSplitT


def mdOnlyA : ChunkMeta :=
  { chunkId := "c0", startRow := 1, endRow := 1, totalRows := 1,
    sheetName := "S", headers := ["A"], processed := true }


/-- The claim's scenario sheet: 2500 data rows under headers
`["Name", "Email"]`. -/
def emailGrid : Grid :=
  [Cell.str "Name", Cell.str "Email"] ::
    List.replicate 2500 [Cell.str "x", Cell.str "a@b.c"]


/-- Its chunks at chunk size 1000 (three of them). -/
def emailChunks : List ChunkMeta :=
  (parseChunksForSheet "s" "Sheet1" emailGrid 1000).getD []


def emailRec : RecTarget :=
  { targetSheet := some "Sheet1", targetColumn := some "Email" }


def modeGrid : Grid :=
  [[Cell.str "V"], [Cell.str "x"], [Cell.str "y"], [Cell.str "x"],
   [Cell.str "y"], [Cell.null]]


def modeT : Transformation :=
  { ttype := "fill_missing", column := some "V", method := "mode" }


/-- Two chunks (chunk size 1) that each hold one copy of the identical
row `[1, 2]`. -/
def dupWb : Workbook :=
  [("S", [[Cell.str "A", Cell.str "B"],
          [Cell.num 1, Cell.num 2], [Cell.num 1, Cell.num 2]])]


def dupT : Transformation := { ttype := "remove_duplicates_global", sheet := "S" }


def dupS1 : ProcState :=
  ((parseExcelInChunks (initState "s" 1) dupWb).map Prod.fst).getD (initState "s" 1)


/-- The state after the route's sequential coordinated pass applies
`remove_duplicates_global` to both chunks. -/
def dupS2 : ProcState :=
  (applyChunkedSequential dupS1 dupT ["s_S_chunk_0", "s_S_chunk_1"]).getD dupS1


def c6miss1 : Issue :=
  { itype := "missing_values", severity := "medium", sheet := "S",
    column := some "C", count := 3, description := "m1",
    examples := some ["a", "b", "c"] }


def c6miss2 : Issue :=
  { itype := "missing_values", severity := "high", sheet := "S",
    column := some "C", count := 5, description := "m2",
    examples := some ["d", "e", "f"] }


def c6ws : Issue :=
  { itype := "whitespace", severity := "high", sheet := "S",
    column := some "D", count := 2, description := "w" }


def setProcessed (md : ChunkMeta) : ChunkMeta := { md with processed := true }


/-- The chunk map entries a metadata list contributes, in order. -/
def pairsOf (mds : List ChunkMeta) : List (String × ChunkMeta) :=
  mds.map (fun md => (md.chunkId, md))


/-- One sheet's chunk metadata for a positive chunk size. -/
def sheetChunkList (sid : String) (C : Nat) (name : String) (g : Grid) :
    List ChunkMeta :=
  (List.range (((sheetRowsOf g - 1) + C - 1) / C)).map fun i =>
    { chunkId := sid ++ "_" ++ name ++ "_chunk_" ++ toString i
      startRow := 1 + i * C
      endRow := min (1 + i * C + C - 1) (sheetRowsOf g - 1)
      totalRows := sheetRowsOf g - 1
      sheetName := name
      headers := headersOf g
      processed := false }


/-- All chunk metadata of a workbook, in sheet order. -/
def sheetsChunks (sid : String) (C : Nat) : Workbook → List ChunkMeta
  | [] => []
  | (name, g) :: rest => sheetChunkList sid C name g ++ sheetsChunks sid C rest


/-- The processed-data entries after materializing every chunk. -/
def payloadPairs (wb : Workbook) (mds : List ChunkMeta) : List (String × Grid) :=
  mds.map (fun md => (md.chunkId, readChunkPayload wb md))


/-- The reassembled form of one sheet: the stringified header row
followed by the data rows read padded to the sheet width. -/
def specSheetGrid (g : Grid) : Grid :=
  (headersOf g).map Cell.str ::
    (List.range (sheetRowsOf g - 1)).map (fun j =>
      (List.range (widthOf g)).map (fun c => cellVal g (1 + j) c))


/-- The document `generateCleanedExcelFromChunks` reassembles from an
untransformed, fully materialized workbook: the sheets with at least
one data row, in order, each as `specSheetGrid`. -/
def specReassembled (wb : Workbook) : Workbook :=
  (wb.filter (fun p => decide (1 ≤ sheetRowsOf p.2 - 1))).map
    (fun p => (p.1, specSheetGrid p.2))


/-- The data rows one chunk entry contributes on reassembly. -/
def chunkTail (pd : List (String × Grid)) (e : String × ChunkMeta) : Grid :=
  ((alget e.1 pd).getD []).drop 1



theorem alget_alset_self {β : Type} (k : String) (v : β) (m : List (String × β)) :
    alget k (alset k v m) = some v := by
  induction m with
  | nil => simp [alget, alset]
  | cons kv rest ih =>
      obtain ⟨k', v'⟩ := kv
      by_cases h : k' = k
      · simp [alget, alset, h]
      · simp [alget, alset, h, ih]


theorem alget_alset_ne {β : Type} (k k' : String) (v : β) (m : List (String × β))
    (h : k' ≠ k) : alget k (alset k' v m) = alget k m := by
  induction m with
  | nil => simp [alget, alset, h]
  | cons kv rest ih =>
      obtain ⟨k0, v0⟩ := kv
      by_cases h0 : k0 = k'
      · subst h0
        simp [alget, alset, h]
      · by_cases h1 : k0 = k
        · subst h1
          simp [alget, alset, h0, Ne.symm h]
        · simp [alget, alset, h0, h1, ih]


theorem alset_self {β : Type} (k : String) (v : β) (m : List (String × β))
    (h : alget k m = some v) : alset k v m = m := by
  induction m with
  | nil => simp [alget] at h
  | cons kv rest ih =>
      obtain ⟨k0, v0⟩ := kv
      by_cases h0 : k0 = k
      · subst h0
        simp [alget] at h
        simp [alset, h]
      · simp [alget, h0] at h
        simp [alset, h0, ih h]


/-- Setting a key absent from the map appends the entry. -/
theorem alset_append_of_not_mem {β : Type} (k : String) (v : β)
    (m : List (String × β)) (h : alget k m = none) :
    alset k v m = m ++ [(k, v)] := by
  induction m with
  | nil => simp [alset]
  | cons kv rest ih =>
      obtain ⟨k0, v0⟩ := kv
      by_cases h0 : k0 = k
      · simp [alget, h0] at h
      · simp [alget, h0] at h
        simp [alset, h0, ih h]


theorem alget_append {β : Type} (k : String) (m m' : List (String × β)) :
    alget k (m ++ m') =
      match alget k m with
      | some v => some v
      | none => alget k m' := by
  induction m with
  | nil => simp [alget]
  | cons kv rest ih =>
      obtain ⟨k0, v0⟩ := kv
      by_cases h0 : k0 = k
      · simp [alget, h0]
      · simp [alget, h0, ih]

/-! ## Arithmetic facts about the ceiling division of the partition -/


theorem ceilDiv_bounds (R C : Nat) (hC : 0 < C) (hR : 1 ≤ R) :
    R ≤ C * ((R + C - 1) / C) ∧ C * ((R + C - 1) / C) ≤ R + C - 1 := by
  have hdm := Nat.div_add_mod (R + C - 1) C
  have hrem : (R + C - 1) % C < C := Nat.mod_lt _ hC
  obtain ⟨q, hq⟩ : ∃ q, (R + C - 1) / C = q := ⟨_, rfl⟩
  rw [hq] at hdm ⊢
  obtain ⟨rem, hrm⟩ : ∃ r, (R + C - 1) % C = r := ⟨_, rfl⟩
  rw [hrm] at hdm hrem
  obtain ⟨p, hp⟩ : ∃ p, C * q = p := ⟨_, rfl⟩
  rw [hp] at hdm ⊢
  omega


theorem chunk_start_le (R C q i : Nat) (hC : 0 < C)
    (hq2 : C * q ≤ R + C - 1) (hi : i < q) : 1 + i * C ≤ R := by
  have h1 : C * (i + 1) ≤ C * q := Nat.mul_le_mul_left C hi
  have h2 : C * (i + 1) = i * C + C := by ring
  obtain ⟨a, ha⟩ : ∃ a, i * C = a := ⟨_, rfl⟩
  obtain ⟨b, hb⟩ : ∃ b, C * q = b := ⟨_, rfl⟩
  rw [h2, ha, hb] at h1
  rw [ha]
  omega


/-- C1 — Partition completeness: for every sheet with at least one data
row and every chunk size `C > 0`, `parseExcelInChunks` creates exactly
`⌈R/C⌉` chunk metadata entries for that sheet (the second and third
conjuncts characterize the length as the ceiling), whose `[startRow,
endRow]` ranges are, in original row order, contiguous and
non-overlapping, and whose union covers exactly the data rows `1..R`
(row 0 being the header); the last chunk may be smaller than `C`.  The
boundaries are a deterministic function of the input because
`parseChunksForSheet` is a pure function of `(sessionId, sheetName,
grid, chunkSize)`. -/
theorem partition_complete (sid name : String) (g : Grid) (C : Nat)
    (hC : 0 < C) (hR : 1 ≤ sheetRowsOf g - 1) :
    ∃ mds, parseChunksForSheet sid name g (C : Int) = some mds ∧
      parseExcelInChunks (initState sid (C : Int)) [(name, g)] =
        some ({ initState sid (C : Int) with
                  workbook := some [(name, g)]
                  chunks := mds.foldl (fun m md => alset md.chunkId md m) [] }, mds) ∧
      (mds.length = ((sheetRowsOf g - 1) + C - 1) / C ∧
        C * (mds.length - 1) < sheetRowsOf g - 1 ∧
        sheetRowsOf g - 1 ≤ C * mds.length) ∧
      (∀ i, ∀ h : i < mds.length,
        (mds.get ⟨i, h⟩).startRow = 1 + i * C ∧
        (mds.get ⟨i, h⟩).endRow = min (i * C + C) (sheetRowsOf g - 1) ∧
        (mds.get ⟨i, h⟩).startRow ≤ (mds.get ⟨i, h⟩).endRow ∧
        (mds.get ⟨i, h⟩).sheetName = name) ∧
      (∀ i j, ∀ hi : i < mds.length, ∀ hj : j < mds.length, i < j →
        (mds.get ⟨i, hi⟩).endRow < (mds.get ⟨j, hj⟩).startRow) ∧
      (∀ r : Nat, (1 ≤ r ∧ r ≤ sheetRowsOf g - 1) ↔
        ∃ i, ∃ h : i < mds.length,
          (mds.get ⟨i, h⟩).startRow ≤ r ∧ r ≤ (mds.get ⟨i, h⟩).endRow) := by
  have hCi : (0 : Int) < (C : Int) := by exact_mod_cast hC
  have hTn : ((C : Int)).toNat = C := Int.toNat_natCast C
  obtain ⟨q, hq⟩ : ∃ q, ((sheetRowsOf g - 1) + C - 1) / C = q := ⟨_, rfl⟩
  obtain ⟨hq1, hq2⟩ := ceilDiv_bounds (sheetRowsOf g - 1) C hC hR
  rw [hq] at hq1 hq2
  have hparse : parseChunksForSheet sid name g (C : Int) =
      some ((List.range q).map fun i =>
        { chunkId := sid ++ "_" ++ name ++ "_chunk_" ++ toString i
          startRow := 1 + i * C
          endRow := min (1 + i * C + C - 1) (sheetRowsOf g - 1)
          totalRows := sheetRowsOf g - 1
          sheetName := name
          headers := headersOf g
          processed := false }) := by
    simp only [parseChunksForSheet, if_pos hCi, hTn, hq]
  refine ⟨_, hparse, ?_, ?_, ?_, ?_, ?_⟩
  · simp [parseExcelInChunks, addSheetsChunks, hparse, initState]
  · constructor
    · simp [hq]
    · constructor
      · simp only [List.length_map, List.length_range]
        rcases Nat.eq_zero_or_pos q with h0 | hqpos
        · subst h0
          omega
        · have h1 : C * q ≤ (sheetRowsOf g - 1) + C - 1 := hq2
          have h2 : C * q = C * (q - 1) + C := by
            have : q - 1 + 1 = q := Nat.succ_pred_eq_of_pos hqpos
            calc C * q = C * (q - 1 + 1) := by rw [this]
              _ = C * (q - 1) + C := by ring
          obtain ⟨a, ha⟩ : ∃ a, C * (q - 1) = a := ⟨_, rfl⟩
          obtain ⟨b, hb⟩ : ∃ b, C * q = b := ⟨_, rfl⟩
          rw [ha] at h2 ⊢
          rw [hb] at h1 h2
          omega
      · simpa using hq1
  · intro i h
    simp only [List.length_map, List.length_range] at h
    simp only [List.get_eq_getElem, List.getElem_map, List.getElem_range]
    have hstart : 1 + i * C ≤ sheetRowsOf g - 1 :=
      chunk_start_le (sheetRowsOf g - 1) C q i hC hq2 h
    obtain ⟨a, ha⟩ : ∃ a, i * C = a := ⟨_, rfl⟩
    rw [ha] at hstart ⊢
    have hmin : 1 + a + C - 1 = a + C := by omega
    refine ⟨by simp, by rw [hmin], ?_, by simp⟩
    rw [hmin]
    exact Nat.le_min.mpr ⟨by omega, hstart⟩
  · intro i j hi hj hij
    simp only [List.length_map, List.length_range] at hi hj
    simp only [List.get_eq_getElem, List.getElem_map, List.getElem_range]
    have h2 : (i + 1) * C ≤ j * C := Nat.mul_le_mul_right C hij
    have h3 : (i + 1) * C = i * C + C := by ring
    rw [h3] at h2
    obtain ⟨a, ha⟩ : ∃ a, i * C = a := ⟨_, rfl⟩
    obtain ⟨b, hb⟩ : ∃ b, j * C = b := ⟨_, rfl⟩
    rw [ha] at h2 ⊢
    rw [hb] at h2 ⊢
    calc min (1 + a + C - 1) (sheetRowsOf g - 1) ≤ 1 + a + C - 1 :=
          Nat.min_le_left _ _
      _ < 1 + b := by omega
  · intro r
    constructor
    · rintro ⟨hr1, hr2⟩
      refine ⟨(r - 1) / C, ?_, ?_, ?_⟩
      · simp only [List.length_map, List.length_range]
        rw [Nat.div_lt_iff_lt_mul hC]
        have : C * q = q * C := Nat.mul_comm _ _
        omega
      · simp only [List.get_eq_getElem, List.getElem_map, List.getElem_range]
        have hds : (r - 1) / C * C ≤ r - 1 := Nat.div_mul_le_self _ _
        obtain ⟨a, ha⟩ : ∃ a, (r - 1) / C * C = a := ⟨_, rfl⟩
        rw [ha] at hds ⊢
        omega
      · simp only [List.get_eq_getElem, List.getElem_map, List.getElem_range]
        have hdm := Nat.div_add_mod (r - 1) C
        have hrem : (r - 1) % C < C := Nat.mod_lt _ hC
        have hcm : C * ((r - 1) / C) = (r - 1) / C * C := Nat.mul_comm _ _
        rw [hcm] at hdm
        obtain ⟨a, ha⟩ : ∃ a, (r - 1) / C * C = a := ⟨_, rfl⟩
        obtain ⟨b, hb⟩ : ∃ b, (r - 1) % C = b := ⟨_, rfl⟩
        rw [ha, hb] at hdm
        rw [hb] at hrem
        rw [ha]
        refine Nat.le_min.mpr ⟨by omega, hr2⟩
    · rintro ⟨i, h, h1, h2⟩
      simp only [List.length_map, List.length_range] at h
      simp only [List.get_eq_getElem, List.getElem_map, List.getElem_range] at h1 h2
      refine ⟨by omega, ?_⟩
      exact le_trans h2 (Nat.min_le_right _ _)


/-- Witness for C1 on a concrete sheet: 5 data rows, chunk size 2,
giving 3 chunks `[1,2]`, `[3,4]`, `[5,5]`. -/
theorem partition_complete_witness :
    ∃ mds, parseChunksForSheet "s" "S"
        [[Cell.str "A"], [Cell.num 1], [Cell.num 2], [Cell.num 3],
         [Cell.num 4], [Cell.num 5]] ((2 : Nat) : Int) = some mds ∧
      parseExcelInChunks (initState "s" ((2 : Nat) : Int))
          [("S", [[Cell.str "A"], [Cell.num 1], [Cell.num 2], [Cell.num 3],
                  [Cell.num 4], [Cell.num 5]])] =
        some ({ initState "s" ((2 : Nat) : Int) with
                  workbook := some [("S", [[Cell.str "A"], [Cell.num 1],
                    [Cell.num 2], [Cell.num 3], [Cell.num 4], [Cell.num 5]])]
                  chunks := mds.foldl (fun m md => alset md.chunkId md m) [] }, mds) ∧
      (mds.length = ((sheetRowsOf [[Cell.str "A"], [Cell.num 1], [Cell.num 2],
          [Cell.num 3], [Cell.num 4], [Cell.num 5]] - 1) + 2 - 1) / 2 ∧
        2 * (mds.length - 1) < sheetRowsOf [[Cell.str "A"], [Cell.num 1],
          [Cell.num 2], [Cell.num 3], [Cell.num 4], [Cell.num 5]] - 1 ∧
        sheetRowsOf [[Cell.str "A"], [Cell.num 1], [Cell.num 2], [Cell.num 3],
          [Cell.num 4], [Cell.num 5]] - 1 ≤ 2 * mds.length) ∧
      (∀ i, ∀ h : i < mds.length,
        (mds.get ⟨i, h⟩).startRow = 1 + i * 2 ∧
        (mds.get ⟨i, h⟩).endRow = min (i * 2 + 2) (sheetRowsOf [[Cell.str "A"],
          [Cell.num 1], [Cell.num 2], [Cell.num 3], [Cell.num 4],
          [Cell.num 5]] - 1) ∧
        (mds.get ⟨i, h⟩).startRow ≤ (mds.get ⟨i, h⟩).endRow ∧
        (mds.get ⟨i, h⟩).sheetName = "S") ∧
      (∀ i j, ∀ hi : i < mds.length, ∀ hj : j < mds.length, i < j →
        (mds.get ⟨i, hi⟩).endRow < (mds.get ⟨j, hj⟩).startRow) ∧
      (∀ r : Nat, (1 ≤ r ∧ r ≤ sheetRowsOf [[Cell.str "A"], [Cell.num 1],
          [Cell.num 2], [Cell.num 3], [Cell.num 4], [Cell.num 5]] - 1) ↔
        ∃ i, ∃ h : i < mds.length,
          (mds.get ⟨i, h⟩).startRow ≤ r ∧ r ≤ (mds.get ⟨i, h⟩).endRow) :=
  partition_complete "s" "S"
    [[Cell.str "A"], [Cell.num 1], [Cell.num 2], [Cell.num 3],
     [Cell.num 4], [Cell.num 5]] 2 (by decide) (by decide)

/-! ## C8 — chunk-size validation -/


/-- `parseChunksForSheet` at chunk size 0. -/
theorem parseChunksForSheet_zero (sid name : String) (g : Grid) :
    parseChunksForSheet sid name g 0 =
      if sheetRowsOf g - 1 = 0 then some [] else none := by
  simp [parseChunksForSheet]


/-- C8 amended — invalid chunk sizes are not rejected: the partition
performs no validation and raises no `InvalidInput` error.  A negative
chunk size makes every sheet contribute zero chunks (`Math.ceil` of a
negative quotient), so the call returns successfully with an empty
chunk list; chunk size 0 on a workbook containing a sheet with at least
one data row makes the partition loop run forever (`Math.ceil(dataRows /
0) = Infinity`), modelled as `none`. -/
theorem invalid_chunk_size_not_rejected :
    (∀ (sid : String) (cs : Int) (wb : Workbook), cs < 0 →
      parseExcelInChunks (initState sid cs) wb =
        some ({ initState sid cs with workbook := some wb }, [])) ∧
    (∀ (sid : String) (wb : Workbook) (name : String) (g : Grid),
      (name, g) ∈ wb → 1 ≤ sheetRowsOf g - 1 →
      parseExcelInChunks (initState sid 0) wb = none) := by
  constructor
  · intro sid cs wb hneg
    have hsheet : ∀ name g, parseChunksForSheet sid name g cs = some [] := by
      intro name g
      have h1 : ¬ (0 < cs) := by omega
      simp [parseChunksForSheet, h1, hneg]
    have hall : addSheetsChunks sid cs wb = some [] := by
      induction wb with
      | nil => simp [addSheetsChunks]
      | cons p rest ih =>
          obtain ⟨name, g⟩ := p
          simp [addSheetsChunks, hsheet, ih]
    simp [parseExcelInChunks, hall, initState]
  · intro sid wb name g hmem hdata
    have hmain : ∀ wb', (name, g) ∈ wb' → addSheetsChunks sid 0 wb' = none := by
      intro wb' hmem'
      induction wb' with
      | nil => simp at hmem'
      | cons p rest ih =>
          obtain ⟨nm, g'⟩ := p
          rcases List.mem_cons.mp hmem' with heq | htail
          · obtain ⟨h1, h2⟩ := Prod.mk.injEq .. ▸ heq
            subst h1
            subst h2
            have : ¬ (sheetRowsOf g - 1 = 0) := by omega
            simp [addSheetsChunks, parseChunksForSheet_zero, this]
          · rcases Nat.eq_zero_or_pos (sheetRowsOf g' - 1) with h0 | hpos
            · simp [addSheetsChunks, parseChunksForSheet_zero, h0, ih htail]
            · have : ¬ (sheetRowsOf g' - 1 = 0) := by omega
              simp [addSheetsChunks, parseChunksForSheet_zero, this]
    simp [parseExcelInChunks, initState, hmain wb hmem]


/-- C8 counterexample: partitioning a 3-data-row sheet with chunk size
`-1` does not fail with `InvalidInput`; it returns successfully, with no
chunks created. -/
theorem invalid_chunk_size_counterexample :
    parseExcelInChunks (initState "s" (-1))
        [("S", [[Cell.str "A"], [Cell.str "x"], [Cell.str "y"], [Cell.str "z"]])] =
      some ({ initState "s" (-1) with
                workbook := some [("S", [[Cell.str "A"], [Cell.str "x"],
                  [Cell.str "y"], [Cell.str "z"]])] }, []) := by
  rfl


/-- Witness for C8's amended theorem at concrete inputs. -/
theorem invalid_chunk_size_witness :
    parseExcelInChunks (initState "s" (-2)) [("S", [[Cell.str "A"], [Cell.num 1]])] =
      some ({ initState "s" (-2) with
                workbook := some [("S", [[Cell.str "A"], [Cell.num 1]])] }, []) ∧
    parseExcelInChunks (initState "s" 0) [("S", [[Cell.str "A"], [Cell.num 1]])] = none :=
  ⟨invalid_chunk_size_not_rejected.1 "s" (-2) _ (by decide),
   invalid_chunk_size_not_rejected.2 "s" _ "S" [[Cell.str "A"], [Cell.num 1]]
     (by simp) (by decide)⟩

/-! ## C4 — materialization behaviour of `processChunk` -/


/-- C4 amended — `processChunk` recomputes the payload from the source
worksheet on *every* call, overwriting the stored entry (it never
returns the stored payload).  Calling it twice without any intervening
state change returns equal payloads — the source workbook is immutable
and the read is deterministic — and leaves the chunk's metadata with
`processed = true` and the payload stored under the chunk id. -/
theorem processChunk_eq (s : ProcState) (cid : String) (md : ChunkMeta)
    (wb : Workbook) (hmd : alget cid s.chunks = some md)
    (hwb : s.workbook = some wb) :
    processChunk s cid = some
      ({ s with
           processedData := alset cid (readChunkPayload wb md) s.processedData
           chunks := alset cid { md with processed := true } s.chunks },
        readChunkPayload wb md) := by
  unfold processChunk
  rw [hmd, hwb]


theorem processChunk_rereads_idempotent (s : ProcState) (cid : String)
    (s1 : ProcState) (p1 : Grid) (h : processChunk s cid = some (s1, p1)) :
    ∃ s2, processChunk s1 cid = some (s2, p1) ∧
      alget cid s1.processedData = some p1 ∧
      ∃ md1, alget cid s1.chunks = some md1 ∧ md1.processed = true := by
  cases hmd : alget cid s.chunks with
  | none =>
      unfold processChunk at h
      rw [hmd] at h
      simp at h
  | some md =>
      cases hwb : s.workbook with
      | none =>
          unfold processChunk at h
          rw [hmd, hwb] at h
          simp at h
      | some wb =>
          rw [processChunk_eq s cid md wb hmd hwb] at h
          simp only [Option.some.injEq, Prod.mk.injEq] at h
          obtain ⟨hs1, hp1⟩ := h
          subst hs1
          subst hp1
          have h2 := processChunk_eq
            { s with
                processedData := alset cid (readChunkPayload wb md) s.processedData
                chunks := alset cid { md with processed := true } s.chunks }
            cid { md with processed := true } wb (alget_alset_self ..) hwb
          exact ⟨_, h2, alget_alset_self .., ⟨_, alget_alset_self .., rfl⟩⟩


/-- C4 counterexample: after a materialize and a fill, the stored
payload holds the filled value `"X"`, yet a second `processChunk` call
(no evict happened) returns the payload re-read from the source — not
the already-stored payload — silently discarding the fill. -/
theorem processChunk_counterexample :
    alget "s_S_chunk_0" exS3.processedData =
      some [[Cell.str "A"], [Cell.str "X"], [Cell.num 5]] ∧
    (processChunk exS3 "s_S_chunk_0").map Prod.snd =
      some [[Cell.str "A"], [Cell.null], [Cell.num 5]] ∧
    some [[Cell.str "A"], [Cell.null], [Cell.num 5]] ≠
      some [[Cell.str "A"], [Cell.str "X"], [Cell.num 5]] :=
  ⟨by rfl, by rfl, by decide⟩


/-- Witness for C4's amended theorem: the second call on the concrete
single-chunk workbook returns the same payload as the first. -/
theorem processChunk_idempotent_witness :
    ∃ s2, processChunk exS2 "s_S_chunk_0" =
        some (s2, [[Cell.str "A"], [Cell.null], [Cell.num 5]]) ∧
      alget "s_S_chunk_0" exS2.processedData =
        some [[Cell.str "A"], [Cell.null], [Cell.num 5]] ∧
      ∃ md1, alget "s_S_chunk_0" exS2.chunks = some md1 ∧ md1.processed = true :=
  processChunk_rereads_idempotent exS1 "s_S_chunk_0" exS2
    [[Cell.str "A"], [Cell.null], [Cell.num 5]] (by rfl)

/-! ## C5 — structural failures are tolerated silently -/


/-- C5 amended — structural failures do not raise: the source
`applyTransformationToChunk` never throws.  (1) When the chunk id has no
materialized payload (unknown id or evicted payload) the call returns
the state unchanged — no error, and no log entry either.  (2) The same
happens when the payload has fewer than two rows.  (3) When the
targeted column is absent from the payload's header row, each
column-scoped transformation leaves the payload untouched and the call
still appends a `completed` log entry.  (Unrecognized/malformed type
strings likewise fall through silently; that is claim C10.) -/
theorem structural_failures_silent :
    (∀ (s : ProcState) (cid : String) (t : Transformation),
      alget cid s.processedData = none → applyTransformationToChunk s cid t = s) ∧
    (∀ (s : ProcState) (cid : String) (t : Transformation) (g : Grid),
      alget cid s.processedData = some g → g.length < 2 →
      applyTransformationToChunk s cid t = s) ∧
    (∀ (s : ProcState) (cid : String) (t : Transformation) (g : Grid),
      alget cid s.processedData = some g → 2 ≤ g.length →
      (t.ttype = "fill_missing" ∨ t.ttype = "standardize_format" ∨
        t.ttype = "fix_data_types" ∨ t.ttype = "trim_whitespace") →
      headerIndex g t.column = none →
      applyTransformationToChunk s cid t =
        { s with transformationLog := s.transformationLog ++
            [{ chunkId := cid, transformation := t, status := "completed" }] }) := by
  refine ⟨?_, ?_, ?_⟩
  · intro s cid t hget
    unfold applyTransformationToChunk
    rw [hget]
  · intro s cid t g hget hlen
    unfold applyTransformationToChunk
    rw [hget]
    simp [hlen]
  · intro s cid t g hget hlen htype hidx
    have hnot : ¬ g.length < 2 := by omega
    unfold applyTransformationToChunk
    rw [hget]
    simp only [if_neg hnot]
    rcases htype with htt | htt | htt | htt
    · simp only [htt, if_pos]
      simp only [fillMissingPayload, hidx, updatePayload,
        alset_self cid g s.processedData hget]
    · rw [htt]
      simp only [if_neg (by decide : ¬ ("standardize_format" = "fill_missing")),
        if_neg (by decide : ¬ ("standardize_format" = "remove_duplicates")), if_pos]
      simp only [standardizeFormatPayload, hidx, updatePayload,
        alset_self cid g s.processedData hget]
    · rw [htt]
      simp only [if_neg (by decide : ¬ ("fix_data_types" = "fill_missing")),
        if_neg (by decide : ¬ ("fix_data_types" = "remove_duplicates")),
        if_neg (by decide : ¬ ("fix_data_types" = "standardize_format")), if_pos]
      simp only [fixDataTypesPayload, hidx, updatePayload,
        alset_self cid g s.processedData hget]
    · rw [htt]
      simp only [if_neg (by decide : ¬ ("trim_whitespace" = "fill_missing")),
        if_neg (by decide : ¬ ("trim_whitespace" = "remove_duplicates")),
        if_neg (by decide : ¬ ("trim_whitespace" = "standardize_format")),
        if_neg (by decide : ¬ ("trim_whitespace" = "fix_data_types")), if_pos]
      simp only [trimWhitespacePayload, hidx, updatePayload,
        alset_self cid g s.processedData hget]


/-- C5 counterexample: applying `fill_missing` for the absent column
`"Nope"` to a materialized chunk completes without any error, leaves
the payload untouched, and even logs the transformation as
`completed` — instead of escalating the structural failure. -/
theorem structural_failure_counterexample :
    applyTransformationToChunk exS2 "s_S_chunk_0"
        { ttype := "fill_missing", column := some "Nope" } =
      { exS2 with transformationLog := exS2.transformationLog ++
          [{ chunkId := "s_S_chunk_0"
             transformation := { ttype := "fill_missing", column := some "Nope" }
             status := "completed" }] } ∧
    alget "s_S_chunk_0" (applyTransformationToChunk exS2 "s_S_chunk_0"
        { ttype := "fill_missing", column := some "Nope" }).processedData =
      some [[Cell.str "A"], [Cell.null], [Cell.num 5]] :=
  ⟨by rfl, by rfl⟩


/-- Witness for C5's amended theorem at concrete inputs: an unknown
chunk id is a silent no-op, and a missing column is silently logged as
completed. -/
theorem structural_failures_silent_witness :
    applyTransformationToChunk exS2 "no_such_chunk"
        { ttype := "fill_missing", column := some "A" } = exS2 ∧
    applyTransformationToChunk exS2 "s_S_chunk_0"
        { ttype := "trim_whitespace", column := some "Nope" } =
      { exS2 with transformationLog := exS2.transformationLog ++
          [{ chunkId := "s_S_chunk_0"
             transformation := { ttype := "trim_whitespace", column := some "Nope" }
             status := "completed" }] } :=
  ⟨structural_failures_silent.1 exS2 "no_such_chunk"
      { ttype := "fill_missing", column := some "A" } (by rfl),
   structural_failures_silent.2.2 exS2 "s_S_chunk_0"
      { ttype := "trim_whitespace", column := some "Nope" }
      [[Cell.str "A"], [Cell.null], [Cell.num 5]] (by rfl) (by decide)
      (by simp) (by rfl)⟩

/-! ## C10 — unrecognized transformation types -/


/-- C10 amended — for a chunk whose materialized payload still has a
header row and at least one data row, a transformation whose type is
none of the seven recognized strings falls through the dispatch switch:
the call changes nothing except appending exactly one `completed` log
entry, and raises no error.  (When the payload is absent or has fewer
than two rows — reachable for a materialized chunk after a
`split_multi_value` that drops every row — the call instead returns
with *no* log entry; that is the counterexample.) -/
theorem unknown_type_silent_completed (s : ProcState) (cid : String)
    (t : Transformation) (g : Grid) (hget : alget cid s.processedData = some g)
    (hlen : 2 ≤ g.length)
    (hty : t.ttype ∉ (["fill_missing", "remove_duplicates", "standardize_format",
      "fix_data_types", "trim_whitespace", "normalize_data",
      "split_multi_value"] : List String)) :
    applyTransformationToChunk s cid t =
      { s with transformationLog := s.transformationLog ++
          [{ chunkId := cid, transformation := t, status := "completed" }] } := by
  have hnot : ¬ g.length < 2 := by omega
  simp only [List.mem_cons, List.not_mem_nil, or_false, not_or] at hty
  obtain ⟨h1, h2, h3, h4, h5, h6, h7⟩ := hty
  unfold applyTransformationToChunk
  rw [hget]
  simp only [if_neg hnot, if_neg h1, if_neg h2, if_neg h3, if_neg h4, if_neg h5,
    if_neg h6, if_neg h7]


/-- C10 counterexample: a materialized chunk whose payload was emptied
by a split still has a stored payload, yet applying an unrecognized
transformation type to it appends *no* log entry at all (the call
returns the state unchanged), not exactly one `completed` entry. -/
theorem unknown_type_counterexample :
    alget "s_S_chunk_0" exSplit3.processedData = some [[Cell.str "A"]] ∧
    exSplit3.transformationLog.length = 1 ∧
    applyTransformationToChunk exSplit3 "s_S_chunk_0" { ttype := "bogus_type" } =
      exSplit3 :=
  ⟨by decide, by rfl, by decide⟩


/-- Witness for C10's amended theorem on a concrete materialized chunk
with one data row. -/
theorem unknown_type_witness :
    applyTransformationToChunk exS2 "s_S_chunk_0" { ttype := "bogus_type" } =
      { exS2 with transformationLog := exS2.transformationLog ++
          [{ chunkId := "s_S_chunk_0", transformation := { ttype := "bogus_type" }
             status := "completed" }] } :=
  unknown_type_silent_completed exS2 "s_S_chunk_0" { ttype := "bogus_type" }
    [[Cell.str "A"], [Cell.null], [Cell.num 5]] (by rfl) (by decide) (by decide)

/-! ## C7 — chunk routing -/


/-- C7 amended — when a target sheet is set, `determineAffectedChunks`
returns every chunk of that sheet *without consulting the target
column*; the column filter only applies when no target sheet is given.
Whenever the target column (if any) is present in the headers of every
chunk of the target sheet — in particular always within one sheet whose
headers contain the column — this coincides with the claim's set
"sheet matches and headers contain the column", in chunk creation
order. -/
theorem determineAffectedChunks_eq_claim (rec : RecTarget)
    (chunks : List ChunkMeta) (sname : String)
    (hsheet : truthy rec.targetSheet = some sname)
    (hcol : ∀ col, truthy rec.targetColumn = some col →
      ∀ c ∈ chunks, c.sheetName = sname → col ∈ c.headers) :
    determineAffectedChunks rec chunks = claimAffectedChunks rec chunks := by
  have hred : determineAffectedChunks rec chunks =
      (chunks.filter (fun c => decide (c.sheetName = sname))).map (·.chunkId) := by
    unfold determineAffectedChunks
    rw [hsheet]
  rw [hred]
  unfold claimAffectedChunks
  congr 1
  apply List.filter_congr
  intro c hc
  by_cases hs : c.sheetName = sname
  · cases hcolv : truthy rec.targetColumn with
    | none => simp [hs, hsheet, hcolv]
    | some col =>
        have hmem : col ∈ c.headers := hcol col hcolv c hc hs
        simp [hs, hsheet, hcolv, hmem]
  · have hns : ¬ (sname = c.sheetName) := fun h => hs h.symm
    simp [hs, hsheet, hns]


/-- C7 counterexample: with a target sheet set and a target column that
is absent from the sheet's headers, the code routes to every chunk of
the sheet (the column is ignored), while the claim's set — chunks whose
header list contains the column — is empty. -/
theorem routing_counterexample :
    determineAffectedChunks
        { targetSheet := some "S", targetColumn := some "Email" } [mdOnlyA] =
      ["c0"] ∧
    claimAffectedChunks
        { targetSheet := some "S", targetColumn := some "Email" } [mdOnlyA] = [] ∧
    ¬ ("Email" ∈ mdOnlyA.headers) := by
  refine ⟨by rfl, by rfl, by decide⟩


theorem foldr_max_replicate (n a : Nat) :
    (List.replicate n a).foldr max 0 = if n = 0 then 0 else a := by
  induction n with
  | zero => simp
  | succ m ih =>
      rcases Nat.eq_zero_or_pos m with h0 | hpos
      · subst h0
        simp [List.replicate_succ]
      · have : ¬ (m = 0) := by omega
        simp [List.replicate_succ, ih, this]


theorem sheetRowsOf_emailGrid : sheetRowsOf emailGrid = 2501 := by
  unfold sheetRowsOf emailGrid
  rw [List.length_cons, List.length_replicate]
  decide


theorem widthOf_emailGrid : widthOf emailGrid = 2 := by
  unfold widthOf emailGrid
  rw [List.map_cons, List.map_replicate, List.foldr_cons, foldr_max_replicate]
  decide


theorem headersOf_emailGrid : headersOf emailGrid = ["Name", "Email"] := by
  unfold headersOf
  rw [widthOf_emailGrid]
  rfl


/-- The three chunk metadata entries of the scenario, explicitly. -/
theorem emailChunks_eq : emailChunks =
    [{ chunkId := "s_Sheet1_chunk_0", startRow := 1, endRow := 1000,
       totalRows := 2500, sheetName := "Sheet1", headers := ["Name", "Email"],
       processed := false },
     { chunkId := "s_Sheet1_chunk_1", startRow := 1001, endRow := 2000,
       totalRows := 2500, sheetName := "Sheet1", headers := ["Name", "Email"],
       processed := false },
     { chunkId := "s_Sheet1_chunk_2", startRow := 2001, endRow := 2500,
       totalRows := 2500, sheetName := "Sheet1", headers := ["Name", "Email"],
       processed := false }] := by
  unfold emailChunks parseChunksForSheet
  rw [sheetRowsOf_emailGrid, headersOf_emailGrid]
  norm_num
  rfl


/-- Witness for C7's amended theorem on the claim's own scenario: a
2500-row sheet chunked at 1000 rows gives 3 chunks, and a
transformation on column `"Email"` routes to all 3 chunk ids. -/
theorem routing_witness :
    determineAffectedChunks emailRec emailChunks =
      claimAffectedChunks emailRec emailChunks ∧
    determineAffectedChunks emailRec emailChunks =
      ["s_Sheet1_chunk_0", "s_Sheet1_chunk_1", "s_Sheet1_chunk_2"] ∧
    emailChunks.length = 3 :=
  ⟨determineAffectedChunks_eq_claim emailRec emailChunks "Sheet1" (by rfl)
      (by
        intro col hc c hcmem hcs
        injection hc with hc
        subst hc
        rw [emailChunks_eq] at hcmem
        fin_cases hcmem <;> decide),
    by rw [emailChunks_eq]; decide,
    by rw [emailChunks_eq]; decide⟩

/-! ## C9 — mode tie-breaking -/


/-- The `reduce((a, b) => frequency[a] > frequency[b] ? a : b)` fold
returns the *last* element of the key list attaining the maximal
measure: the list decomposes as `l₁ ++ result :: l₂` with every element
bounded by the result and everything after it strictly below it. -/
theorem foldl_pickMax_lastMax {α : Type} (f : α → Nat) (ks : List α) :
    ∀ k0 : α, ∃ l₁ l₂,
      k0 :: ks = l₁ ++ (ks.foldl (fun a c => if f a > f c then a else c) k0) :: l₂ ∧
      (∀ x ∈ k0 :: ks, f x ≤ f (ks.foldl (fun a c => if f a > f c then a else c) k0)) ∧
      (∀ x ∈ l₂, f x < f (ks.foldl (fun a c => if f a > f c then a else c) k0)) := by
  induction ks with
  | nil =>
      intro k0
      exact ⟨[], [], rfl, by simp, by simp⟩
  | cons b bs ih =>
      intro k0
      have hstep : ((b :: bs).foldl (fun a c => if f a > f c then a else c) k0) =
          (bs.foldl (fun a c => if f a > f c then a else c)
            (if f k0 > f b then k0 else b)) := by
        simp
      by_cases hfb : f k0 > f b
      · rw [if_pos hfb] at hstep
        obtain ⟨l₁, l₂, hdec, hmax, hlast⟩ := ih k0
        rw [hstep]
        cases l₁ with
        | nil =>
            simp only [List.nil_append] at hdec
            injection hdec with h1 h2
            refine ⟨[], b :: bs, ?_, ?_, ?_⟩
            · simp [← h1]
            · intro x hx
              rcases List.mem_cons.mp hx with h | hx'
              · subst h
                rw [← h1]
              · rcases List.mem_cons.mp hx' with h | hx''
                · subst h
                  rw [← h1]
                  omega
                · exact hmax x (List.mem_cons_of_mem _ hx'')
            · intro x hx
              rcases List.mem_cons.mp hx with h | hx'
              · subst h
                rw [← h1]
                omega
              · rw [h2] at hx'
                exact hlast x hx'
        | cons a l₁' =>
            rw [List.cons_append] at hdec
            injection hdec with h1 h2
            refine ⟨k0 :: b :: l₁', l₂, ?_, ?_, ?_⟩
            · simp only [List.cons_append]
              rw [← h2]
            · intro x hx
              rcases List.mem_cons.mp hx with h | hx'
              · have hk := hmax k0 (List.mem_cons_self ..)
                rw [h]
                exact hk
              · rcases List.mem_cons.mp hx' with h | hx''
                · have hk := hmax k0 (List.mem_cons_self ..)
                  rw [h]
                  omega
                · exact hmax x (List.mem_cons_of_mem _ hx'')
            · exact hlast
      · rw [if_neg hfb] at hstep
        obtain ⟨l₁, l₂, hdec, hmax, hlast⟩ := ih b
        rw [hstep]
        refine ⟨k0 :: l₁, l₂, ?_, ?_, ?_⟩
        · rw [List.cons_append, ← hdec]
        · intro x hx
          rcases List.mem_cons.mp hx with h | hx'
          · have hb := hmax b (List.mem_cons_self ..)
            rw [h]
            omega
          · exact hmax x hx'
        · exact hlast


theorem alset_length {β : Type} (k : String) (v : β) (m : List (String × β)) :
    m.length ≤ (alset k v m).length := by
  induction m with
  | nil => simp [alset]
  | cons kv rest ih =>
      obtain ⟨k0, v0⟩ := kv
      by_cases h0 : k0 = k <;> simp [alset, h0, ih]


theorem freqStep_length (m : List (String × Nat)) (c : Cell) :
    m.length ≤ (freqStep m c).length := by
  unfold freqStep
  cases h : alget (jsString c) m with
  | none => simp [h]
  | some n =>
      simp only [h]
      exact alset_length ..


theorem foldl_freqStep_length (cd : List Cell) :
    ∀ acc : List (String × Nat), acc.length ≤ (cd.foldl freqStep acc).length := by
  induction cd with
  | nil => simp
  | cons c rest ih =>
      intro acc
      rw [List.foldl_cons]
      exact le_trans (freqStep_length acc c) (ih _)


theorem buildFrequency_ne_nil (cd : List Cell) (hne : cd ≠ []) :
    buildFrequency cd ≠ [] := by
  obtain ⟨c, rest, rfl⟩ := List.exists_cons_of_ne_nil hne
  unfold buildFrequency
  rw [List.foldl_cons]
  have h1 : (freqStep [] c).length = 1 := by
    simp [freqStep, alget]
  have h2 := foldl_freqStep_length rest (freqStep [] c)
  intro hnil
  rw [hnil] at h2
  simp [h1] at h2


theorem jsObjectKeys_length {β : Type} (m : List (String × β)) :
    (jsObjectKeys m).length = m.length := by
  unfold jsObjectKeys
  rw [List.length_append, List.length_insertionSort]
  have hsplit :
      ((m.map (·.1)).filter isArrayIndexKey).length +
        ((m.map (·.1)).filter (fun k => ¬ isArrayIndexKey k)).length =
        (m.map (·.1)).length := by
    have hperm := List.filter_append_perm isArrayIndexKey (m.map (·.1))
    have hlen := hperm.length_eq
    rw [List.length_append] at hlen
    have : ((m.map (·.1)).filter (fun k => ¬ isArrayIndexKey k)) =
        ((m.map (·.1)).filter (fun k => ! isArrayIndexKey k)) := by
      apply List.filter_congr
      intro x _
      simp
    rw [this]
    exact hlen
  rw [hsplit, List.length_map]


/-- C9 amended — for `fill_missing` with method `mode` on non-empty
column data, the chosen fill value is the *stringified* value whose key
comes *last* among the maximal-frequency keys in the frequency object's
enumeration order (`Object.keys`: integer-like keys first in ascending
numeric order, then the remaining keys in insertion order); ties are
therefore broken by the last-enumerated tied value, not the
first-encountered one. -/
theorem mode_fill_last_max (columnData : List Cell) (hne : columnData ≠ []) :
    ∃ r l₁ l₂,
      modeReduce (buildFrequency columnData) = some r ∧
      (∀ t : Transformation, t.method = "mode" →
        computeFillValue t columnData = Cell.str r) ∧
      jsObjectKeys (buildFrequency columnData) = l₁ ++ r :: l₂ ∧
      (∀ x ∈ jsObjectKeys (buildFrequency columnData),
        (alget x (buildFrequency columnData)).getD 0 ≤
          (alget r (buildFrequency columnData)).getD 0) ∧
      (∀ x ∈ l₂,
        (alget x (buildFrequency columnData)).getD 0 <
          (alget r (buildFrequency columnData)).getD 0) := by
  have hfreq := buildFrequency_ne_nil columnData hne
  have hkeys : jsObjectKeys (buildFrequency columnData) ≠ [] := by
    intro h
    have := jsObjectKeys_length (buildFrequency columnData)
    rw [h] at this
    exact hfreq (List.length_eq_zero.mp this.symm)
  obtain ⟨k, ks, hk⟩ := List.exists_cons_of_ne_nil hkeys
  have hmr : modeReduce (buildFrequency columnData) =
      some (ks.foldl
        (fun a c => if (alget a (buildFrequency columnData)).getD 0 >
          (alget c (buildFrequency columnData)).getD 0 then a else c) k) := by
    unfold modeReduce
    rw [hk]
  obtain ⟨l₁, l₂, hdec, hmax, hlast⟩ :=
    foldl_pickMax_lastMax (fun x => (alget x (buildFrequency columnData)).getD 0) ks k
  refine ⟨_, l₁, l₂, hmr, ?_, ?_, ?_, ?_⟩
  · intro t htm
    unfold computeFillValue
    rw [if_neg (by simp [htm]), if_neg (by simp [htm]),
      if_pos (⟨htm, hne⟩ : t.method = "mode" ∧ columnData ≠ []), hmr]
  · rw [hk]
    exact hdec
  · rw [hk]
    exact hmax
  · exact hlast


/-- C9 counterexample: with column values `x, y, x, y` (a two-way tie),
the empty cell is filled with `"y"` — the *last*-encountered tied value
— not the first-encountered `"x"` the claim requires. -/
theorem mode_tie_counterexample :
    ((fillMissingPayload modeT modeGrid).getD 5 []).getD 0 Cell.null =
      Cell.str "y" ∧
    Cell.str "y" ≠ Cell.str "x" :=
  ⟨by rfl, by decide⟩


/-- Witness for C9's amended theorem on the tied column data. -/
theorem mode_fill_witness :
    ∃ r l₁ l₂,
      modeReduce (buildFrequency
        [Cell.str "x", Cell.str "y", Cell.str "x", Cell.str "y"]) = some r ∧
      (∀ t : Transformation, t.method = "mode" →
        computeFillValue t
            [Cell.str "x", Cell.str "y", Cell.str "x", Cell.str "y"] =
          Cell.str r) ∧
      jsObjectKeys (buildFrequency
        [Cell.str "x", Cell.str "y", Cell.str "x", Cell.str "y"]) =
        l₁ ++ r :: l₂ ∧
      (∀ x ∈ jsObjectKeys (buildFrequency
          [Cell.str "x", Cell.str "y", Cell.str "x", Cell.str "y"]),
        (alget x (buildFrequency
          [Cell.str "x", Cell.str "y", Cell.str "x", Cell.str "y"])).getD 0 ≤
          (alget r (buildFrequency
            [Cell.str "x", Cell.str "y", Cell.str "x", Cell.str "y"])).getD 0) ∧
      (∀ x ∈ l₂,
        (alget x (buildFrequency
          [Cell.str "x", Cell.str "y", Cell.str "x", Cell.str "y"])).getD 0 <
          (alget r (buildFrequency
            [Cell.str "x", Cell.str "y", Cell.str "x", Cell.str "y"])).getD 0) :=
  mode_fill_last_max [Cell.str "x", Cell.str "y", Cell.str "x", Cell.str "y"]
    (by decide)

/-! ## C3 — cross-chunk global deduplication -/


/-- C3 — `applyTransformationToChunk` has *no* case for
`remove_duplicates_global` (and no cross-chunk accumulator exists
anywhere): running the coordinated sequential pass over both chunks
removes *neither* copy of the duplicated row — both chunk payloads
still hold their copy, the reassembled sheet still has both rows — yet
the transformation log records a `completed` entry per chunk.  This
contradicts the code's own recommendation text ("removes duplicates
across all chunks", "Eliminates all duplicate records across chunks"),
so the claim describes the intent and the code is the slip. -/
theorem remove_duplicates_global_noop :
    alget "s_S_chunk_0" dupS2.processedData =
      some [[Cell.str "A", Cell.str "B"], [Cell.num 1, Cell.num 2]] ∧
    alget "s_S_chunk_1" dupS2.processedData =
      some [[Cell.str "A", Cell.str "B"], [Cell.num 1, Cell.num 2]] ∧
    generateCleanedExcelFromChunks dupS2 =
      some [("S", [[Cell.str "A", Cell.str "B"],
                   [Cell.num 1, Cell.num 2], [Cell.num 1, Cell.num 2]])] ∧
    dupS2.transformationLog.map (fun e => e.status) = ["completed", "completed"] :=
  ⟨by rfl, by rfl, by rfl, by rfl⟩

/-! ## C6 — issue aggregation -/


theorem alget_none_iff {β : Type} (k : String) (m : List (String × β)) :
    alget k m = none ↔ k ∉ m.map Prod.fst := by
  induction m with
  | nil => simp [alget]
  | cons kv rest ih =>
      obtain ⟨k0, v0⟩ := kv
      by_cases h0 : k0 = k
      · subst h0
        simp [alget]
      · simp [alget, h0, ih, Ne.symm h0]


theorem alget_mem {β : Type} (k : String) (v : β) (m : List (String × β))
    (h : alget k m = some v) : (k, v) ∈ m := by
  induction m with
  | nil => simp [alget] at h
  | cons kv rest ih =>
      obtain ⟨k0, v0⟩ := kv
      by_cases h0 : k0 = k
      · subst h0
        simp [alget] at h
        simp [h]
      · simp [alget, h0] at h
        simp [ih h]


theorem mem_alset {β : Type} (kv : String × β) (k : String) (v : β)
    (m : List (String × β)) (h : kv ∈ alset k v m) : kv = (k, v) ∨ kv ∈ m := by
  induction m with
  | nil => simpa [alset] using h
  | cons kv0 rest ih =>
      obtain ⟨k0, v0⟩ := kv0
      by_cases h0 : k0 = k
      · subst h0
        simp [alset] at h
        rcases h with h | h
        · exact Or.inl (by simp [h])
        · exact Or.inr (by simp [h])
      · simp [alset, h0] at h
        rcases h with h | h
        · exact Or.inr (by simp [h])
        · rcases ih h with h' | h'
          · exact Or.inl h'
          · exact Or.inr (by simp [h'])


theorem alset_keys_of_get {β : Type} (k : String) (v w : β)
    (m : List (String × β)) (h : alget k m = some w) :
    (alset k v m).map Prod.fst = m.map Prod.fst := by
  induction m with
  | nil => simp [alget] at h
  | cons kv rest ih =>
      obtain ⟨k0, v0⟩ := kv
      by_cases h0 : k0 = k
      · subst h0
        simp [alset]
      · simp [alget, h0] at h
        simp [alset, h0, ih h]


theorem joinKey_mergeIssue (a b : Issue) : joinKey (mergeIssue a b) = joinKey a := rfl


theorem alget_aggStep (m : List (String × Issue)) (i : Issue) (k : String) :
    alget k (aggStep m i) =
      if joinKey i = k then
        match alget k m with
        | some v => some (mergeIssue v i)
        | none => some i
      else alget k m := by
  unfold aggStep
  by_cases hik : joinKey i = k
  · subst hik
    cases hg : alget (joinKey i) m with
    | some ex =>
        simp only [hg, if_pos rfl]
        rw [alget_alset_self]
        simp
    | none =>
        simp only [hg, if_pos rfl]
        rw [alget_append]
        simp [hg, alget]
  · cases hg : alget (joinKey i) m with
    | some ex =>
        simp only [hg, if_neg hik]
        exact alget_alset_ne k (joinKey i) _ m hik
    | none =>
        simp only [hg, if_neg hik]
        rw [alget_append]
        cases hk : alget k m with
        | some v => rfl
        | none => simp [alget, hik]


theorem aggStep_some (m : List (String × Issue)) (i ex : Issue)
    (hg : alget (joinKey i) m = some ex) :
    aggStep m i = alset (joinKey i) (mergeIssue ex i) m := by
  unfold aggStep
  rw [hg]


theorem aggStep_none (m : List (String × Issue)) (i : Issue)
    (hg : alget (joinKey i) m = none) :
    aggStep m i = m ++ [(joinKey i, i)] := by
  unfold aggStep
  rw [hg]


theorem aggFold_keyinv (issues : List Issue) :
    ∀ m, (∀ kv ∈ m, joinKey kv.2 = kv.1) →
      ∀ kv ∈ issues.foldl aggStep m, joinKey kv.2 = kv.1 := by
  induction issues with
  | nil =>
      intro m hm
      simpa using hm
  | cons i rest ih =>
      intro m hm
      rw [List.foldl_cons]
      apply ih
      intro kv hkv
      cases hg : alget (joinKey i) m with
      | some ex =>
          rw [aggStep_some m i ex hg] at hkv
          rcases mem_alset kv (joinKey i) (mergeIssue ex i) m hkv with h | h
          · subst h
            have hex : joinKey ex = joinKey i := hm (joinKey i, ex) (alget_mem _ _ _ hg)
            simpa [joinKey_mergeIssue] using hex
          · exact hm kv h
      | none =>
          rw [aggStep_none m i hg] at hkv
          simp only [List.mem_append, List.mem_singleton] at hkv
          rcases hkv with h | h
          · exact hm kv h
          · subst h
            rfl


theorem aggFold_keysNodup (issues : List Issue) :
    ∀ m, (m.map Prod.fst).Nodup → ((issues.foldl aggStep m).map Prod.fst).Nodup := by
  induction issues with
  | nil =>
      intro m hm
      simpa using hm
  | cons i rest ih =>
      intro m hm
      rw [List.foldl_cons]
      apply ih
      cases hg : alget (joinKey i) m with
      | some ex =>
          rw [aggStep_some m i ex hg, alset_keys_of_get _ _ _ _ hg]
          exact hm
      | none =>
          rw [aggStep_none m i hg]
          simp only [List.map_append]
          have hnot : joinKey i ∉ m.map Prod.fst := (alget_none_iff _ _).mp hg
          simp [List.nodup_append, hm, hnot]


theorem aggFold_lookup (issues : List Issue) :
    ∀ (m : List (String × Issue)) (k : String),
      alget k (issues.foldl aggStep m) =
        match alget k m with
        | some v => some ((issues.filter (fun i => joinKey i = k)).foldl mergeIssue v)
        | none =>
            match issues.filter (fun i => joinKey i = k) with
            | [] => none
            | j :: js => some (js.foldl mergeIssue j) := by
  induction issues with
  | nil =>
      intro m k
      cases hg : alget k m <;> simp [hg]
  | cons i rest ih =>
      intro m k
      rw [List.foldl_cons, ih (aggStep m i) k, alget_aggStep]
      by_cases hik : joinKey i = k
      · rw [if_pos hik]
        have hfil : (i :: rest).filter (fun x => decide (joinKey x = k)) =
            i :: rest.filter (fun x => decide (joinKey x = k)) := by
          simp [List.filter_cons, hik]
        rw [hfil]
        cases hg : alget k m with
        | some v => simp
        | none => simp
      · rw [if_neg hik]
        have hfil : (i :: rest).filter (fun x => decide (joinKey x = k)) =
            rest.filter (fun x => decide (joinKey x = k)) := by
          simp [List.filter_cons, hik]
        rw [hfil]


theorem filter_values_of_keys :
    ∀ (m : List (String × Issue)),
      (∀ kv ∈ m, joinKey kv.2 = kv.1) → ((m.map Prod.fst).Nodup) → ∀ k,
      (m.map Prod.snd).filter (fun i => joinKey i = k) =
        (match alget k m with
          | some v => [v]
          | none => []) := by
  intro m
  induction m with
  | nil =>
      intro _ _ k
      simp [alget]
  | cons kv rest ih =>
      intro hkey hnd k
      obtain ⟨k0, v0⟩ := kv
      have hk0 : joinKey v0 = k0 := hkey (k0, v0) (by simp)
      have hndrest : (rest.map Prod.fst).Nodup := (List.nodup_cons.mp (by simpa using hnd)).2
      have hkeyrest : ∀ kv ∈ rest, joinKey kv.2 = kv.1 := by
        intro kv hkv
        exact hkey kv (by simp [hkv])
      by_cases h0 : k0 = k
      · subst h0
        have hnotin : k0 ∉ rest.map Prod.fst :=
          (List.nodup_cons.mp (by simpa using hnd)).1
        have hnone : alget k0 rest = none := (alget_none_iff _ _).mpr hnotin
        have hrest := ih hkeyrest hndrest k0
        rw [hnone] at hrest
        simp only [List.map_cons, List.filter_cons, alget]
        simp [hk0, hrest]
      · simp only [List.map_cons, List.filter_cons, alget]
        have : ¬ (joinKey v0 = k) := by
          rw [hk0]
          exact h0
        simp [this, h0, ih hkeyrest hndrest k]


theorem foldl_merge_count (js : List Issue) :
    ∀ v : Issue, (js.foldl mergeIssue v).count = v.count + (js.map (fun i => i.count)).sum := by
  induction js with
  | nil => intro v; simp
  | cons j rest ih =>
      intro v
      rw [List.foldl_cons, ih]
      simp [mergeIssue]
      omega


theorem take_merge {α : Type} (n : Nat) (xs ys : List α) :
    ((xs.take n) ++ ys).take n = (xs ++ ys).take n := by
  induction xs generalizing n ys with
  | nil => simp
  | cons x xs' ih =>
      cases n with
      | zero => simp
      | succ n' => simp [List.take_succ_cons, ih]


theorem foldl_merge_examples (js : List Issue) :
    ∀ v : Issue, (v.examples.getD []).length ≤ 5 →
      (∀ j ∈ js, (j.examples.getD []).length ≤ 5) →
      ((js.foldl mergeIssue v).examples.getD []) =
        ((v.examples.getD []) ++ (js.map (fun i => i.examples.getD [])).join).take 5 := by
  induction js with
  | nil =>
      intro v hv _
      simp [List.take_of_length_le hv]
  | cons j rest ih =>
      intro v hv hall
      rw [List.foldl_cons]
      have hj : (j.examples.getD []).length ≤ 5 := hall j (by simp)
      have hrest : ∀ x ∈ rest, (x.examples.getD []).length ≤ 5 := by
        intro x hx
        exact hall x (by simp [hx])
      cases hje : j.examples with
      | none =>
          have hm : mergeIssue v j = { v with
              count := v.count + j.count
              description := v.description ++ " (aggregated across chunks)" } := by
            simp [mergeIssue, hje]
          rw [hm, ih _ (by simpa using hv) hrest]
          simp [hje]
      | some es =>
          have hm : (mergeIssue v j).examples =
              some ((v.examples.getD [] ++ es).take 5) := by
            simp [mergeIssue, hje]
          have hlen : (((mergeIssue v j).examples).getD []).length ≤ 5 := by
            rw [hm]
            simpa using List.length_take_le 5 _
          rw [ih _ hlen hrest]
          rw [hm]
          simp only [Option.getD_some, hje, List.map_cons, List.join]
          rw [take_merge]
          simp [List.append_assoc]


/-- C6 amended — aggregation groups chunk-level issues by the *joined
key string* `type ++ "_" ++ sheet ++ "_" ++ (column|"global")` (distinct
`(type, sheet, column)` triples whose joined strings coincide are merged
into one issue — the counterexample); for each occurring key the output
contains exactly one issue, whose count is the sum of the group's counts
and whose examples are the concatenation of the group's examples capped
at 5 (chunk-level issues carry at most 3 examples, hence the `≤ 5`
hypothesis); the output is sorted descending by severity
(high > medium > low), stably. -/
theorem aggregation_grouped_sorted (issues : List Issue)
    (hex : ∀ i ∈ issues, (i.examples.getD []).length ≤ 5)
    (k : String) (hk : k ∈ issues.map joinKey) :
    ∃ o, (aggregateIssuesAcrossChunks issues).filter (fun i => joinKey i = k) = [o] ∧
      o.count = ((issues.filter (fun i => joinKey i = k)).map (fun i => i.count)).sum ∧
      (o.examples.getD []) =
        (((issues.filter (fun i => joinKey i = k)).map
          (fun i => i.examples.getD [])).join).take 5 ∧
      List.Sorted sevGE (aggregateIssuesAcrossChunks issues) := by
  have hkeyinv := aggFold_keyinv issues [] (by simp)
  have hnodup := aggFold_keysNodup issues [] (by simp)
  have hlook := aggFold_lookup issues [] k
  have h0 : alget k ([] : List (String × Issue)) = none := rfl
  rw [h0] at hlook
  obtain ⟨i0, hi0mem, hi0key⟩ : ∃ i ∈ issues, joinKey i = k := by
    simpa using hk
  have hfilne : issues.filter (fun i => joinKey i = k) ≠ [] := by
    intro h
    have hmem : i0 ∈ issues.filter (fun i => joinKey i = k) :=
      List.mem_filter.mpr ⟨hi0mem, by simp [hi0key]⟩
    rw [h] at hmem
    simp at hmem
  obtain ⟨j, js, hjjs⟩ := List.exists_cons_of_ne_nil hfilne
  rw [hjjs] at hlook
  have hvals := filter_values_of_keys (issues.foldl aggStep []) hkeyinv hnodup k
  rw [hlook] at hvals
  have hperm : List.Perm (aggregateIssuesAcrossChunks issues)
      ((issues.foldl aggStep []).map Prod.snd) := by
    unfold aggregateIssuesAcrossChunks sortBySeverityDesc
    exact List.perm_insertionSort sevGE _
  have hfilperm := hperm.filter (fun i => decide (joinKey i = k))
  rw [hvals] at hfilperm
  have hfil : (aggregateIssuesAcrossChunks issues).filter
      (fun i => joinKey i = k) = [js.foldl mergeIssue j] :=
    List.perm_singleton.mp hfilperm
  have hjmem : j ∈ issues := by
    have hmem : j ∈ issues.filter (fun i => joinKey i = k) := by
      rw [hjjs]
      simp
    exact (List.mem_filter.mp hmem).1
  have hjsmem : ∀ x ∈ js, (x.examples.getD []).length ≤ 5 := by
    intro x hx
    have hmem : x ∈ issues.filter (fun i => joinKey i = k) := by
      rw [hjjs]
      simp [hx]
    exact hex x (List.mem_filter.mp hmem).1
  refine ⟨js.foldl mergeIssue j, hfil, ?_, ?_, ?_⟩
  · rw [foldl_merge_count, hjjs]
    simp
  · rw [foldl_merge_examples js j (hex j hjmem) hjsmem, hjjs]
    simp
  · unfold aggregateIssuesAcrossChunks sortBySeverityDesc
    exact List.sorted_insertionSort sevGE _


/-- C6 counterexample: the issues `{type "a", sheet "b_c"}` and
`{type "a_b", sheet "c"}` have *different* `(type, sheet, column)`
triples, yet their joined keys both read `"a_b_c_global"`, so
aggregation merges them into a single issue with the summed count —
where the claim requires one issue per `(type, sheet, column)` key,
each keeping its own count. -/
theorem aggregation_key_collision_counterexample :
    aggregateIssuesAcrossChunks
        [{ itype := "a", severity := "low", sheet := "b_c", count := 1,
           description := "d1" },
         { itype := "a_b", severity := "low", sheet := "c", count := 2,
           description := "d2" }] =
      [{ itype := "a", severity := "low", sheet := "b_c", count := 3,
         description := "d1 (aggregated across chunks)" }] ∧
    (("a", "b_c") : String × String) ≠ ("a_b", "c") :=
  ⟨by rfl, by decide⟩


/-- Witness for C6's amended theorem: two `missing_values` issues for
the same sheet and column with counts 3 and 5 aggregate to one issue
with count 8 and capped examples, in a severity-sorted output. -/
theorem aggregation_witness :
    ∃ o, (aggregateIssuesAcrossChunks [c6miss1, c6ws, c6miss2]).filter
        (fun i => joinKey i = "missing_values_S_C") = [o] ∧
      o.count = (([c6miss1, c6ws, c6miss2].filter
        (fun i => joinKey i = "missing_values_S_C")).map (fun i => i.count)).sum ∧
      (o.examples.getD []) =
        ((([c6miss1, c6ws, c6miss2].filter
          (fun i => joinKey i = "missing_values_S_C")).map
            (fun i => i.examples.getD [])).join).take 5 ∧
      List.Sorted sevGE (aggregateIssuesAcrossChunks [c6miss1, c6ws, c6miss2]) :=
  aggregation_grouped_sorted [c6miss1, c6ws, c6miss2] (by decide)
    "missing_values_S_C" (by decide)

/-! ## C2 — reassembly of an untransformed workbook -/


theorem parseChunksForSheet_pos (sid name : String) (g : Grid) (C : Nat)
    (hC : 0 < C) :
    parseChunksForSheet sid name g (C : Int) = some (sheetChunkList sid C name g) := by
  have hCi : (0 : Int) < (C : Int) := by exact_mod_cast hC
  simp only [parseChunksForSheet, if_pos hCi, Int.toNat_natCast, sheetChunkList]


theorem addSheetsChunks_eq (sid : String) (C : Nat) (hC : 0 < C) :
    ∀ wb : Workbook, addSheetsChunks sid (C : Int) wb = some (sheetsChunks sid C wb) := by
  intro wb
  induction wb with
  | nil => rfl
  | cons p rest ih =>
      obtain ⟨name, g⟩ := p
      simp [addSheetsChunks, parseChunksForSheet_pos sid name g C hC, ih, sheetsChunks]


theorem alset_middle {β : Type} (k : String) (v w : β)
    (xs ys : List (String × β)) (h : alget k xs = none) :
    alset k v (xs ++ (k, w) :: ys) = xs ++ (k, v) :: ys := by
  induction xs with
  | nil => simp [alset]
  | cons kv rest ih =>
      obtain ⟨k0, v0⟩ := kv
      by_cases h0 : k0 = k
      · subst h0
        simp [alget] at h
      · simp [alget, h0] at h
        simp [alset, h0, ih h]


theorem alget_cons_append {β : Type} (k : String) (w : β)
    (xs ys : List (String × β)) (h : alget k xs = none) :
    alget k (xs ++ (k, w) :: ys) = some w := by
  rw [alget_append, h]
  simp [alget]


theorem alset_alset {β : Type} (k : String) (v w : β) (m : List (String × β)) :
    alset k v (alset k w m) = alset k v m := by
  induction m with
  | nil => simp [alset]
  | cons kv rest ih =>
      obtain ⟨k0, v0⟩ := kv
      by_cases h0 : k0 = k
      · subst h0
        simp [alset]
      · simp [alset, h0, ih]


theorem alget_map_pairs {γ : Type} (g : ChunkMeta → γ) (mds : List ChunkMeta)
    (h : (mds.map (fun md => md.chunkId)).Nodup) (md : ChunkMeta) (hmem : md ∈ mds) :
    alget md.chunkId (mds.map (fun m => (m.chunkId, g m))) = some (g md) := by
  induction mds with
  | nil => simp at hmem
  | cons m0 rest ih =>
      rcases List.mem_cons.mp hmem with heq | htail
      · subst heq
        simp [alget]
      · have hne : m0.chunkId ≠ md.chunkId := by
          intro hid
          have h0 : m0.chunkId ∉ rest.map (fun md => md.chunkId) :=
            (List.nodup_cons.mp (by simpa using h)).1
          exact h0 (hid ▸ List.mem_map_of_mem _ htail)
        have hrest : (rest.map (fun md => md.chunkId)).Nodup :=
          (List.nodup_cons.mp (by simpa using h)).2
        simp [alget, hne, ih hrest htail]


theorem foldl_alset_pairs (mds : List ChunkMeta) :
    ∀ acc : List (String × ChunkMeta),
      (∀ md ∈ mds, alget md.chunkId acc = none) →
      (mds.map (fun md => md.chunkId)).Nodup →
      mds.foldl (fun m md => alset md.chunkId md m) acc = acc ++ pairsOf mds := by
  induction mds with
  | nil =>
      intro acc _ _
      simp [pairsOf]
  | cons md0 rest ih =>
      intro acc hfresh hnd
      rw [List.foldl_cons]
      have h0 : alget md0.chunkId acc = none := hfresh md0 (by simp)
      rw [alset_append_of_not_mem _ _ _ h0]
      have hnd' : (rest.map (fun md => md.chunkId)).Nodup :=
        (List.nodup_cons.mp (by simpa using hnd)).2
      have hnotin : md0.chunkId ∉ rest.map (fun md => md.chunkId) :=
        (List.nodup_cons.mp (by simpa using hnd)).1
      have hfresh' : ∀ md ∈ rest, alget md.chunkId (acc ++ [(md0.chunkId, md0)]) = none := by
        intro md hmd
        rw [alget_append, hfresh md (by simp [hmd])]
        have hne : md0.chunkId ≠ md.chunkId := by
          intro hid
          exact hnotin (hid ▸ List.mem_map_of_mem _ hmd)
        simp [alget, hne]
      rw [ih (acc ++ [(md0.chunkId, md0)]) hfresh' hnd']
      simp [pairsOf]


theorem headersOf_length (g : Grid) : (headersOf g).length = widthOf g := by
  simp [headersOf]


theorem pairsOf_append (a b : List ChunkMeta) :
    pairsOf (a ++ b) = pairsOf a ++ pairsOf b := by
  simp [pairsOf]


theorem pairsOf_keys (mds : List ChunkMeta) :
    (pairsOf mds).map Prod.fst = mds.map (fun md => md.chunkId) := by
  simp [pairsOf]


/-- Materializing every chunk id in order turns each metadata entry's
`processed` flag on and stores each chunk's payload, in chunk order. -/
theorem processChunksList_all (wb : Workbook) (sid : String) (cs : Int) :
    ∀ (mds done : List ChunkMeta) (pd : List (String × Grid)) (log : List LogEntry),
      ((done ++ mds).map (fun md => md.chunkId)).Nodup →
      (∀ md ∈ mds, alget md.chunkId pd = none) →
      processChunksList
        { workbook := some wb, sessionId := sid, chunkSize := cs,
          chunks := pairsOf (done ++ mds), processedData := pd,
          transformationLog := log }
        (mds.map (fun md => md.chunkId)) =
      some { workbook := some wb, sessionId := sid, chunkSize := cs,
             chunks := pairsOf (done ++ mds.map setProcessed),
             processedData := pd ++ payloadPairs wb mds,
             transformationLog := log } := by
  intro mds
  induction mds with
  | nil =>
      intro done pd log _ _
      simp [processChunksList, payloadPairs]
  | cons md0 rest ih =>
      intro done pd log hnd hfresh
      have hndparts : (done.map (fun md => md.chunkId)).Nodup ∧
          md0.chunkId ∉ done.map (fun md => md.chunkId) ∧
          md0.chunkId ∉ rest.map (fun md => md.chunkId) ∧
          (rest.map (fun md => md.chunkId)).Nodup ∧
          (∀ md ∈ rest, md.chunkId ∉ done.map (fun md => md.chunkId)) := by
        simp only [List.map_append, List.nodup_append, List.map_cons,
          List.nodup_cons, List.disjoint_cons_right] at hnd
        obtain ⟨h1, ⟨h2, h3⟩, h4, h5⟩ := hnd
        refine ⟨h1, fun hc => h4 hc, h2, h3, ?_⟩
        intro md hmd hc
        exact h5 hc (List.mem_map_of_mem _ hmd)
      obtain ⟨hnds, hnotdone, hnotrest, hndrest, hrestdone⟩ := hndparts
      have hsplit : pairsOf (done ++ md0 :: rest) =
          pairsOf done ++ (md0.chunkId, md0) :: pairsOf rest := by
        simp [pairsOf]
      have hdnone : alget md0.chunkId (pairsOf done) = none := by
        rw [alget_none_iff, pairsOf_keys]
        exact hnotdone
      have hkey : alget md0.chunkId (pairsOf (done ++ md0 :: rest)) = some md0 := by
        rw [hsplit]
        exact alget_cons_append _ _ _ _ hdnone
      have hproc := processChunk_eq
        { workbook := some wb, sessionId := sid, chunkSize := cs,
          chunks := pairsOf (done ++ md0 :: rest), processedData := pd,
          transformationLog := log }
        md0.chunkId md0 wb hkey rfl
      simp only [List.map_cons, processChunksList, hproc]
      have hchunks : alset md0.chunkId { md0 with processed := true }
          (pairsOf (done ++ md0 :: rest)) =
          pairsOf ((done ++ [setProcessed md0]) ++ rest) := by
        rw [hsplit, alset_middle _ _ _ _ _ hdnone]
        simp [pairsOf, setProcessed]
      have hpd : alset md0.chunkId (readChunkPayload wb md0) pd =
          pd ++ [(md0.chunkId, readChunkPayload wb md0)] :=
        alset_append_of_not_mem _ _ _ (hfresh md0 (by simp))
      have hfresh' : ∀ md ∈ rest,
          alget md.chunkId (pd ++ [(md0.chunkId, readChunkPayload wb md0)]) = none := by
        intro md hmd
        rw [alget_append, hfresh md (by simp [hmd])]
        have hne : md0.chunkId ≠ md.chunkId := by
          intro hid
          exact hnotrest (hid ▸ List.mem_map_of_mem _ hmd)
        simp [alget, hne]
      have hnd' : (((done ++ [setProcessed md0]) ++ rest).map
          (fun md => md.chunkId)).Nodup := by
        have hids : ((done ++ [setProcessed md0]) ++ rest).map (fun md => md.chunkId) =
            (done ++ md0 :: rest).map (fun md => md.chunkId) := by
          simp [setProcessed]
        rw [hids]
        exact hnd
      have hstep := ih ((done ++ [setProcessed md0]))
        (pd ++ [(md0.chunkId, readChunkPayload wb md0)]) log hnd' hfresh'
      rw [hchunks, hpd, hstep]
      have h1 : (done ++ [setProcessed md0]) ++ rest.map setProcessed =
          done ++ (md0 :: rest).map setProcessed := by
        simp [setProcessed]
      have h2 : (pd ++ [(md0.chunkId, readChunkPayload wb md0)]) ++
          payloadPairs wb rest = pd ++ payloadPairs wb (md0 :: rest) := by
        simp [payloadPairs]
      rw [h1, h2]
      rfl


/-- Each sheet's chunk metadata is part of the whole workbook's. -/
theorem mem_sheetsChunks (sid : String) (C : Nat) (md : ChunkMeta) :
    ∀ (ws : Workbook) (p : String × Grid), p ∈ ws →
      md ∈ sheetChunkList sid C p.1 p.2 → md ∈ sheetsChunks sid C ws := by
  intro ws
  induction ws with
  | nil =>
      intro p hp
      simp at hp
  | cons q rest ih =>
      intro p hp hmd
      obtain ⟨name, g⟩ := q
      rcases List.mem_cons.mp hp with heq | htail
      · subst heq
        simp only [sheetsChunks, List.mem_append]
        exact Or.inl hmd
      · simp only [sheetsChunks, List.mem_append]
        exact Or.inr (ih p htail hmd)


/-- In a map with pairwise distinct keys every entry is found by its
own key. -/
theorem alget_self_of_nodup {β : Type} :
    ∀ (m : List (String × β)), (m.map Prod.fst).Nodup →
      ∀ p ∈ m, alget p.1 m = some p.2 := by
  intro m
  induction m with
  | nil =>
      intro _ p hp
      simp at hp
  | cons kv rest ih =>
      intro hnd p hp
      obtain ⟨k0, v0⟩ := kv
      rcases List.mem_cons.mp hp with heq | htail
      · subst heq
        simp [alget]
      · have h0 : k0 ∉ rest.map Prod.fst :=
          (List.nodup_cons.mp (by simpa using hnd)).1
        have hne : k0 ≠ p.1 := by
          intro h
          exact h0 (h ▸ List.mem_map_of_mem _ htail)
        have hrest : (rest.map Prod.fst).Nodup :=
          (List.nodup_cons.mp (by simpa using hnd)).2
        simp [alget, hne, ih hrest p htail]


/-- One step of the reassembly loop only changes the accumulator. -/
theorem gatherSheets_cons (pd : List (String × Grid)) (e : String × ChunkMeta)
    (t : List (String × ChunkMeta)) (acc : List (String × Grid)) :
    gatherSheets pd (e :: t) acc = gatherSheets pd t (gatherSheets pd [e] acc) := by
  obtain ⟨cid, md⟩ := e
  by_cases hp : md.processed
  · cases hg : alget cid pd <;> simp [gatherSheets, hp, hg]
  · simp [gatherSheets, hp]


/-- The reassembly loop processes concatenated chunk lists in sequence. -/
theorem gatherSheets_append (pd : List (String × Grid))
    (a b : List (String × ChunkMeta)) :
    ∀ acc, gatherSheets pd (a ++ b) acc = gatherSheets pd b (gatherSheets pd a acc) := by
  induction a with
  | nil =>
      intro acc
      rfl
  | cons e t ih =>
      intro acc
      rw [List.cons_append, gatherSheets_cons, ih, ← gatherSheets_cons]


/-- Running the reassembly loop over a block of processed chunks of one
sheet already present in the accumulator appends all their data rows. -/
theorem gather_block_acc (pd : List (String × Grid)) (name : String) :
    ∀ (entries : List (String × ChunkMeta)) (acc : List (String × Grid)) (cur : Grid),
      (∀ e ∈ entries, e.2.processed = true ∧ e.2.sheetName = name ∧
        (alget e.1 pd).isSome = true) →
      alget name acc = some cur →
      gatherSheets pd entries acc =
        alset name (cur ++ (entries.map (chunkTail pd)).flatten) acc := by
  intro entries
  induction entries with
  | nil =>
      intro acc cur _ hacc
      simp [gatherSheets, alset_self name cur acc hacc]
  | cons e rest ih =>
      intro acc cur hconds hacc
      obtain ⟨cid, md⟩ := e
      obtain ⟨hp, hn, hs⟩ := hconds (cid, md) (by simp)
      have hp' : md.processed = true := hp
      have hn' : md.sheetName = name := hn
      obtain ⟨g, hg⟩ := Option.isSome_iff_exists.mp hs
      have hg' : alget cid pd = some g := hg
      have hconds' : ∀ e ∈ rest, e.2.processed = true ∧ e.2.sheetName = name ∧
          (alget e.1 pd).isSome = true := fun e he => hconds e (by simp [he])
      have hstep : gatherSheets pd ((cid, md) :: rest) acc =
          gatherSheets pd rest (alset name (cur ++ g.drop 1) acc) := by
        simp [gatherSheets, hp', hg', hn', hacc]
      rw [hstep, ih _ _ hconds' (alget_alset_self name _ acc), alset_alset]
      have htail : chunkTail pd (cid, md) = g.drop 1 := by
        simp [chunkTail, hg]
      simp [htail, List.append_assoc]


/-- Running the reassembly loop over a nonempty block of processed
chunks of a sheet not yet in the accumulator records the first chunk's
header row followed by all the chunks' data rows. -/
theorem gather_block_fresh (pd : List (String × Grid)) (name : String)
    (e : String × ChunkMeta) (rest : List (String × ChunkMeta))
    (acc : List (String × Grid))
    (hconds : ∀ x ∈ e :: rest, x.2.processed = true ∧ x.2.sheetName = name ∧
      (alget x.1 pd).isSome = true)
    (hacc : alget name acc = none) :
    gatherSheets pd (e :: rest) acc =
      alset name ((e.2.headers.map Cell.str) ::
        ((e :: rest).map (chunkTail pd)).flatten) acc := by
  obtain ⟨cid, md⟩ := e
  obtain ⟨hp, hn, hs⟩ := hconds (cid, md) (by simp)
  have hp' : md.processed = true := hp
  have hn' : md.sheetName = name := hn
  obtain ⟨g, hg⟩ := Option.isSome_iff_exists.mp hs
  have hg' : alget cid pd = some g := hg
  have hconds' : ∀ x ∈ rest, x.2.processed = true ∧ x.2.sheetName = name ∧
      (alget x.1 pd).isSome = true := fun x hx => hconds x (by simp [hx])
  have hstep : gatherSheets pd ((cid, md) :: rest) acc =
      gatherSheets pd rest (alset name (md.headers.map Cell.str :: g.drop 1) acc) := by
    simp [gatherSheets, hp', hg', hn', hacc]
  rw [hstep, gather_block_acc pd name rest _ _ hconds' (alget_alset_self name _ acc),
    alset_alset]
  have htail : chunkTail pd (cid, md) = g.drop 1 := by
    simp [chunkTail, hg]
  simp [htail, List.append_assoc]


/-- Concatenating the row blocks of the chunk partition of data rows
`1..R` (chunk `i` covering `startRow = 1 + i*C` through
`endRow = min (1 + i*C + C - 1) R`) restores the full row range. -/
theorem chunkRows_join (C : Nat) (hC : 0 < C) :
    ∀ (n R : Nat) (f : Nat → List Cell), n = (R + C - 1) / C →
      ((List.range n).map (fun i =>
        (List.range (min (1 + i * C + C - 1) R + 1 - (1 + i * C))).map
          (fun j => f (1 + i * C + j)))).flatten
        = (List.range R).map (fun j => f (1 + j)) := by
  intro n
  induction n with
  | zero =>
      intro R f hn
      have hR : R = 0 := by
        by_contra hne
        have hb := (ceilDiv_bounds R C hC (by omega)).1
        rw [← hn] at hb
        simp at hb
        omega
      subst hR
      simp
  | succ m ih =>
      intro R f hn
      have hR1 : 1 ≤ R := by
        by_contra hlt
        have hR0 : R = 0 := by omega
        subst hR0
        have h0 : 0 + C - 1 = C - 1 := by omega
        rw [h0, Nat.div_eq_of_lt (show C - 1 < C by omega)] at hn
        omega
      have hm : m = (R - 1) / C := by
        have h1 : R + C - 1 = (R - 1) + C := by omega
        rw [h1, Nat.add_div_right _ hC] at hn
        omega
      have hm' : m = ((R - C) + C - 1) / C := by
        rcases Nat.le_total R C with hle | hge
        · have h2 : R - C = 0 := by omega
          rw [h2]
          have h3 : 0 + C - 1 = C - 1 := by omega
          rw [h3, Nat.div_eq_of_lt (show C - 1 < C by omega)]
          rw [hm, Nat.div_eq_of_lt (show R - 1 < C by omega)]
        · have h1 : R - C + C - 1 = R - 1 := by omega
          rw [h1, hm]
      obtain ⟨g, hgdef⟩ : ∃ g : Nat → List Cell, g = fun r => f (r + C) := ⟨_, rfl⟩
      have hgap : ∀ x, g x = f (x + C) := fun x => by rw [hgdef]
      have ihC := ih (R - C) g hm'
      simp only [List.range_succ_eq_map, List.map_cons, List.flatten_cons,
        List.map_map]
      have hc0 : min (1 + 0 * C + C - 1) R + 1 - (1 + 0 * C) = min C R := by
        have h1 : 1 + 0 * C + C - 1 = C := by omega
        rw [h1]
        omega
      have hf0 : (fun j => f (1 + 0 * C + j)) = (fun j => f (1 + j)) := by
        funext j
        have h2 : 1 + 0 * C + j = 1 + j := by omega
        rw [h2]
      have htail : (List.range m).map
          ((fun i => (List.range (min (1 + i * C + C - 1) R + 1 - (1 + i * C))).map
            (fun j => f (1 + i * C + j))) ∘ Nat.succ) =
          (List.range m).map (fun i =>
            (List.range (min (1 + i * C + C - 1) (R - C) + 1 - (1 + i * C))).map
              (fun j => g (1 + i * C + j))) := by
        apply List.map_congr_left
        intro i hi
        have him : i < m := List.mem_range.mp hi
        have h1 : 1 ≤ (R - 1) / C := by
          rw [← hm]
          omega
        have h2 : C ≤ R - 1 := (Nat.one_le_div_iff hC).mp h1
        simp only [Function.comp_apply]
        have hmul : Nat.succ i * C = i * C + C := Nat.succ_mul i C
        have hcnt : min (1 + Nat.succ i * C + C - 1) R + 1 - (1 + Nat.succ i * C)
            = min (1 + i * C + C - 1) (R - C) + 1 - (1 + i * C) := by
          rw [hmul]
          omega
        rw [hcnt]
        apply List.map_congr_left
        intro j _
        rw [hgap (1 + i * C + j)]
        have h3 : 1 + Nat.succ i * C + j = 1 + i * C + j + C := by
          rw [hmul]
          omega
        rw [h3]
      have hsplit : (List.range R).map (fun j => f (1 + j)) =
          (List.range (min C R)).map (fun j => f (1 + j)) ++
            (List.range (R - C)).map (fun j => g (1 + j)) := by
        have hRsum : R = min C R + (R - C) := by omega
        conv_lhs => rw [hRsum]
        rw [List.range_add, List.map_append, List.map_map]
        congr 1
        apply List.map_congr_left
        intro j hj
        have hjlt : j < R - C := List.mem_range.mp hj
        simp only [Function.comp_apply]
        rw [hgap (1 + j)]
        have h4 : 1 + (min C R + j) = 1 + j + C := by omega
        rw [h4]
      rw [hc0, hf0, htail, ihC, hsplit]


/-- Reassembling one sheet's fully materialized chunk block appends the
sheet's reassembled grid to the accumulator; a sheet without data rows
has no chunks and leaves the accumulator unchanged. -/
theorem gather_block (pd : List (String × Grid)) (wb : Workbook) (sid name : String)
    (g : Grid) (C : Nat) (hC : 0 < C)
    (hwb : alget name wb = some g)
    (hpd : ∀ md ∈ sheetChunkList sid C name g,
      alget md.chunkId pd = some (readChunkPayload wb md))
    (acc : List (String × Grid)) (hacc : alget name acc = none) :
    gatherSheets pd (pairsOf ((sheetChunkList sid C name g).map setProcessed)) acc =
      if 1 ≤ sheetRowsOf g - 1 then acc ++ [(name, specSheetGrid g)] else acc := by
  by_cases hR : 1 ≤ sheetRowsOf g - 1
  · rw [if_pos hR]
    obtain ⟨n', hn'⟩ : ∃ n', ((sheetRowsOf g - 1) + C - 1) / C = n' + 1 := by
      have h1 : 1 ≤ ((sheetRowsOf g - 1) + C - 1) / C :=
        (Nat.one_le_div_iff hC).mpr (by omega)
      exact ⟨((sheetRowsOf g - 1) + C - 1) / C - 1, by omega⟩
    have hent : pairsOf ((sheetChunkList sid C name g).map setProcessed) =
        (List.range (((sheetRowsOf g - 1) + C - 1) / C)).map (fun i =>
          (sid ++ "_" ++ name ++ "_chunk_" ++ toString i,
            { chunkId := sid ++ "_" ++ name ++ "_chunk_" ++ toString i
              startRow := 1 + i * C
              endRow := min (1 + i * C + C - 1) (sheetRowsOf g - 1)
              totalRows := sheetRowsOf g - 1
              sheetName := name
              headers := headersOf g
              processed := true })) := by
      simp only [sheetChunkList, pairsOf, List.map_map]
      apply List.map_congr_left
      intro i _
      rfl
    have hmdmem : ∀ i, i < n' + 1 →
        ({ chunkId := sid ++ "_" ++ name ++ "_chunk_" ++ toString i
           startRow := 1 + i * C
           endRow := min (1 + i * C + C - 1) (sheetRowsOf g - 1)
           totalRows := sheetRowsOf g - 1
           sheetName := name
           headers := headersOf g
           processed := false } : ChunkMeta) ∈ sheetChunkList sid C name g := by
      intro i hi
      simp only [sheetChunkList]
      exact List.mem_map.mpr ⟨i, List.mem_range.mpr (by rw [hn']; omega), rfl⟩
    have hall : ∀ x ∈ (List.range (n' + 1)).map (fun i =>
        (sid ++ "_" ++ name ++ "_chunk_" ++ toString i,
          ({ chunkId := sid ++ "_" ++ name ++ "_chunk_" ++ toString i
             startRow := 1 + i * C
             endRow := min (1 + i * C + C - 1) (sheetRowsOf g - 1)
             totalRows := sheetRowsOf g - 1
             sheetName := name
             headers := headersOf g
             processed := true } : ChunkMeta))),
        x.2.processed = true ∧ x.2.sheetName = name ∧ (alget x.1 pd).isSome = true := by
      intro x hx
      obtain ⟨i, hi, hxe⟩ := List.mem_map.mp hx
      subst hxe
      refine ⟨rfl, rfl, ?_⟩
      show (alget (sid ++ "_" ++ name ++ "_chunk_" ++ toString i) pd).isSome = true
      rw [show alget (sid ++ "_" ++ name ++ "_chunk_" ++ toString i) pd =
          some (readChunkPayload wb
            { chunkId := sid ++ "_" ++ name ++ "_chunk_" ++ toString i
              startRow := 1 + i * C
              endRow := min (1 + i * C + C - 1) (sheetRowsOf g - 1)
              totalRows := sheetRowsOf g - 1
              sheetName := name
              headers := headersOf g
              processed := false }) from hpd _ (hmdmem i (List.mem_range.mp hi))]
      rfl
    obtain ⟨rowFn, hrowFn⟩ : ∃ h : Nat → List Cell,
        h = fun r => (List.range (widthOf g)).map (fun c => cellVal g r c) := ⟨_, rfl⟩
    have hrowAp : ∀ r, rowFn r = (List.range (widthOf g)).map (fun c => cellVal g r c) :=
      fun r => by rw [hrowFn]
    have hws : wbSheet wb name = g := by simp [wbSheet, hwb]
    rw [hent, hn', List.range_succ_eq_map, List.map_cons]
    rw [List.range_succ_eq_map, List.map_cons] at hall
    rw [gather_block_fresh pd name _ _ acc hall hacc]
    have hpack : ((sid ++ "_" ++ name ++ "_chunk_" ++ toString 0,
          ({ chunkId := sid ++ "_" ++ name ++ "_chunk_" ++ toString 0
             startRow := 1 + 0 * C
             endRow := min (1 + 0 * C + C - 1) (sheetRowsOf g - 1)
             totalRows := sheetRowsOf g - 1
             sheetName := name
             headers := headersOf g
             processed := true } : ChunkMeta)) ::
        ((List.range n').map Nat.succ).map (fun i =>
          (sid ++ "_" ++ name ++ "_chunk_" ++ toString i,
            ({ chunkId := sid ++ "_" ++ name ++ "_chunk_" ++ toString i
               startRow := 1 + i * C
               endRow := min (1 + i * C + C - 1) (sheetRowsOf g - 1)
               totalRows := sheetRowsOf g - 1
               sheetName := name
               headers := headersOf g
               processed := true } : ChunkMeta)))) =
        (List.range (n' + 1)).map (fun i =>
          (sid ++ "_" ++ name ++ "_chunk_" ++ toString i,
            ({ chunkId := sid ++ "_" ++ name ++ "_chunk_" ++ toString i
               startRow := 1 + i * C
               endRow := min (1 + i * C + C - 1) (sheetRowsOf g - 1)
               totalRows := sheetRowsOf g - 1
               sheetName := name
               headers := headersOf g
               processed := true } : ChunkMeta))) := by
      rw [List.range_succ_eq_map, List.map_cons]
    rw [hpack, List.map_map]
    have hct : (List.range (n' + 1)).map ((chunkTail pd) ∘ (fun i =>
        (sid ++ "_" ++ name ++ "_chunk_" ++ toString i,
          ({ chunkId := sid ++ "_" ++ name ++ "_chunk_" ++ toString i
             startRow := 1 + i * C
             endRow := min (1 + i * C + C - 1) (sheetRowsOf g - 1)
             totalRows := sheetRowsOf g - 1
             sheetName := name
             headers := headersOf g
             processed := true } : ChunkMeta)))) =
        (List.range (n' + 1)).map (fun i =>
          (List.range (min (1 + i * C + C - 1) (sheetRowsOf g - 1) + 1 - (1 + i * C))).map
            (fun j => rowFn (1 + i * C + j))) := by
      apply List.map_congr_left
      intro i hi
      simp only [Function.comp_apply, chunkTail]
      show ((alget (sid ++ "_" ++ name ++ "_chunk_" ++ toString i) pd).getD []).drop 1 = _
      rw [show alget (sid ++ "_" ++ name ++ "_chunk_" ++ toString i) pd =
          some (readChunkPayload wb
            { chunkId := sid ++ "_" ++ name ++ "_chunk_" ++ toString i
              startRow := 1 + i * C
              endRow := min (1 + i * C + C - 1) (sheetRowsOf g - 1)
              totalRows := sheetRowsOf g - 1
              sheetName := name
              headers := headersOf g
              processed := false }) from hpd _ (hmdmem i (List.mem_range.mp hi))]
      simp only [Option.getD_some, readChunkPayload, List.drop_one, List.tail_cons]
      apply List.map_congr_left
      intro j _
      rw [hrowAp (1 + i * C + j)]
      simp [hws, headersOf_length]
    rw [hct, chunkRows_join C hC (n' + 1) (sheetRowsOf g - 1) rowFn hn'.symm]
    rw [alset_append_of_not_mem _ _ _ hacc]
    subst hrowFn
    rfl
  · rw [if_neg hR]
    have hR0 : sheetRowsOf g - 1 = 0 := by omega
    have hn0 : ((sheetRowsOf g - 1) + C - 1) / C = 0 := by
      rw [hR0]
      have h1 : 0 + C - 1 = C - 1 := by omega
      rw [h1]
      exact Nat.div_eq_of_lt (by omega)
    simp [sheetChunkList, hn0, pairsOf, gatherSheets]


/-- Reassembling the fully materialized, untransformed chunks of a list
of sheets appends each sheet's reassembled grid, in sheet order,
skipping sheets without data rows. -/
theorem gather_all (wb : Workbook) (sid : String) (C : Nat) (hC : 0 < C)
    (pd : List (String × Grid)) :
    ∀ (ws : Workbook) (acc : List (String × Grid)),
      (∀ p ∈ ws, alget p.1 wb = some p.2) →
      (ws.map Prod.fst).Nodup →
      (∀ p ∈ ws, alget p.1 acc = none) →
      (∀ p ∈ ws, ∀ md ∈ sheetChunkList sid C p.1 p.2,
        alget md.chunkId pd = some (readChunkPayload wb md)) →
      gatherSheets pd (pairsOf ((sheetsChunks sid C ws).map setProcessed)) acc =
        acc ++ specReassembled ws := by
  intro ws
  induction ws with
  | nil =>
      intro acc _ _ _ _
      simp [sheetsChunks, pairsOf, gatherSheets, specReassembled]
  | cons p rest ih =>
      intro acc hwb hnd hacc hpd
      obtain ⟨name, g⟩ := p
      have hsplitE : pairsOf ((sheetsChunks sid C ((name, g) :: rest)).map setProcessed) =
          pairsOf ((sheetChunkList sid C name g).map setProcessed) ++
            pairsOf ((sheetsChunks sid C rest).map setProcessed) := by
        simp [sheetsChunks, pairsOf]
      rw [hsplitE, gatherSheets_append]
      rw [gather_block pd wb sid name g C hC (hwb (name, g) (by simp))
        (hpd (name, g) (by simp)) acc (hacc (name, g) (by simp))]
      have hnd' : (rest.map Prod.fst).Nodup := (List.nodup_cons.mp (by simpa using hnd)).2
      have hnotin : name ∉ rest.map Prod.fst := (List.nodup_cons.mp (by simpa using hnd)).1
      by_cases hR : 1 ≤ sheetRowsOf g - 1
      · rw [if_pos hR]
        have hacc' : ∀ p ∈ rest, alget p.1 (acc ++ [(name, specSheetGrid g)]) = none := by
          intro p hp
          rw [alget_append, hacc p (by simp [hp])]
          have hne : name ≠ p.1 := by
            intro h
            exact hnotin (h ▸ List.mem_map_of_mem _ hp)
          simp [alget, hne]
        rw [ih (acc ++ [(name, specSheetGrid g)]) (fun p hp => hwb p (by simp [hp])) hnd'
          hacc' (fun p hp => hpd p (by simp [hp]))]
        have hspec : specReassembled ((name, g) :: rest) =
            (name, specSheetGrid g) :: specReassembled rest := by
          simp [specReassembled, hR]
        rw [hspec, List.append_assoc]
        rfl
      · rw [if_neg hR]
        rw [ih acc (fun p hp => hwb p (by simp [hp])) hnd'
          (fun p hp => hacc p (by simp [hp])) (fun p hp => hpd p (by simp [hp]))]
        have hspec : specReassembled ((name, g) :: rest) = specReassembled rest := by
          simp [specReassembled, hR]
        rw [hspec]


/-- No array-index-like keys means the `Object.entries` enumeration
keeps insertion order. -/
theorem jsObjectEntries_id {β : Type} (m : List (String × β))
    (h : ∀ kv ∈ m, isArrayIndexKey kv.1 = false) : jsObjectEntries m = m := by
  unfold jsObjectEntries
  have h1 : m.filter (fun kv => isArrayIndexKey kv.1) = [] := by
    rw [List.filter_eq_nil_iff]
    intro kv hkv
    simp [h kv hkv]
  have h2 : m.filter (fun kv => ¬ isArrayIndexKey kv.1) = m := by
    rw [List.filter_eq_self]
    intro kv hkv
    simp [h kv hkv]
  rw [h1, h2]
  rfl

/-- C2 (amended): for a positive chunk size, distinct sheet names,
distinct chunk ids and no chunk id containing the `_normalized_`
marker, parsing a workbook into chunks, materializing every chunk and
reassembling with no transformation yields exactly the sheets with at
least one data row, each rebuilt as its stringified header row
followed by its data rows re-read through the header-width window
(`specSheetGrid`), listed in the `Object.entries` enumeration order:
array-index-like sheet names first in ascending numeric order, then
the remaining sheets in original order.  When no sheet name is
array-index-like the sheet order is the original one; the content is
still not the original workbook cell-for-cell. -/
theorem chunked_round_trip (sid : String) (C : Nat) (wb : Workbook)
    (hC : 0 < C)
    (hnames : (wb.map Prod.fst).Nodup)
    (hids : ((sheetsChunks sid C wb).map (fun md => md.chunkId)).Nodup)
    (hmark : ∀ md ∈ sheetsChunks sid C wb, hasNormalizedMarker md.chunkId = false) :
    chunkedRoundTrip sid (C : Int) wb =
      some (jsObjectEntries (specReassembled wb)) ∧
    ((∀ p ∈ wb, isArrayIndexKey p.1 = false) →
      chunkedRoundTrip sid (C : Int) wb = some (specReassembled wb)) := by
  have h1 : addSheetsChunks sid (C : Int) wb = some (sheetsChunks sid C wb) :=
    addSheetsChunks_eq sid C hC wb
  have h2 := foldl_alset_pairs (sheetsChunks sid C wb) [] (fun md _ => rfl) hids
  simp only [List.nil_append] at h2
  have hparse : parseExcelInChunks (initState sid (C : Int)) wb =
      some ({ workbook := some wb, sessionId := sid, chunkSize := (C : Int),
              chunks := pairsOf (sheetsChunks sid C wb), processedData := [],
              transformationLog := [] }, sheetsChunks sid C wb) := by
    simp only [parseExcelInChunks, initState, h1, h2, Option.bind_eq_bind,
      Option.some_bind, Option.pure_def]
  have hkeys : (pairsOf (sheetsChunks sid C wb)).map (fun x => x.1) =
      (sheetsChunks sid C wb).map (fun md => md.chunkId) := by
    simp [pairsOf]
  have hmat := processChunksList_all wb sid (C : Int) (sheetsChunks sid C wb) [] [] []
    hids (fun md _ => rfl)
  simp only [List.nil_append] at hmat
  have hpd4 : ∀ p ∈ wb, ∀ md ∈ sheetChunkList sid C p.1 p.2,
      alget md.chunkId (payloadPairs wb (sheetsChunks sid C wb)) =
        some (readChunkPayload wb md) := by
    intro p hp md hmd
    exact alget_map_pairs (readChunkPayload wb) _ hids md
      (mem_sheetsChunks sid C md wb p hp hmd)
  have hgather := gather_all wb sid C hC (payloadPairs wb (sheetsChunks sid C wb)) wb []
    (alget_self_of_nodup wb hnames) hnames (fun p _ => rfl) hpd4
  simp only [List.nil_append] at hgather
  have hnorm : ((payloadPairs wb (sheetsChunks sid C wb)).filter
      (fun kv => hasNormalizedMarker kv.1)) = [] := by
    rw [List.filter_eq_nil_iff]
    intro kv hkv
    simp only [payloadPairs, List.mem_map] at hkv
    obtain ⟨md, hmd, hkveq⟩ := hkv
    rw [← hkveq]
    simp [hmark md hmd]
  have hmain : chunkedRoundTrip sid (C : Int) wb =
      some (jsObjectEntries (specReassembled wb)) := by
    unfold chunkedRoundTrip
    rw [hparse]
    simp only [Option.bind_eq_bind, Option.some_bind]
    rw [hkeys, hmat]
    simp only [Option.some_bind]
    simp only [generateCleanedExcelFromChunks, hgather, hnorm, List.map_nil,
      List.append_nil]
  refine ⟨hmain, fun hnone => ?_⟩
  have hkeys' : ∀ kv ∈ specReassembled wb, isArrayIndexKey kv.1 = false := by
    intro kv hkv
    simp only [specReassembled, List.mem_map, List.mem_filter] at hkv
    obtain ⟨p, ⟨hp, _⟩, hkveq⟩ := hkv
    rw [← hkveq]
    exact hnone p hp
  rw [hmain, jsObjectEntries_id (specReassembled wb) hkeys']


/-- C2 counterexample: the round-trip is neither cell-for-cell identity
nor sheet-order preserving.  A numeric header cell `1` comes back as the
string `"1"`, and a workbook with sheets `Summary, 2023` — the latter an
array-index-like name — comes back with `2023` hoisted before
`Summary`. -/
theorem roundtrip_counterexample :
    (chunkedRoundTrip "s" 10 [("S", [[Cell.num 1], [Cell.num 7]])] =
        some [("S", [[Cell.str "1"], [Cell.num 7]])] ∧
      ([[Cell.str "1"], [Cell.num 7]] : Grid) ≠
        ([[Cell.num 1], [Cell.num 7]] : Grid)) ∧
    chunkedRoundTrip "s" 10
        [("Summary", [[Cell.str "H"], [Cell.str "a"]]),
         ("2023", [[Cell.str "K"], [Cell.str "b"]])] =
      some [("2023", [[Cell.str "K"], [Cell.str "b"]]),
            ("Summary", [[Cell.str "H"], [Cell.str "a"]])] :=
  ⟨⟨by decide, by decide⟩, by decide⟩


/-- Witness for the amended round-trip law on a concrete workbook with
one string-headed sheet of three data rows at chunk size 2. -/
theorem chunked_round_trip_witness :
    chunkedRoundTrip "s" 2
        [("S", [[Cell.str "H"], [Cell.str "a"], [Cell.str "b"], [Cell.str "c"]])] =
      some (jsObjectEntries (specReassembled
        [("S", [[Cell.str "H"], [Cell.str "a"], [Cell.str "b"], [Cell.str "c"]])])) ∧
    ((∀ p ∈ [("S", [[Cell.str "H"], [Cell.str "a"], [Cell.str "b"], [Cell.str "c"]])],
        isArrayIndexKey p.1 = false) →
      chunkedRoundTrip "s" 2
          [("S", [[Cell.str "H"], [Cell.str "a"], [Cell.str "b"], [Cell.str "c"]])] =
        some (specReassembled
          [("S", [[Cell.str "H"], [Cell.str "a"], [Cell.str "b"], [Cell.str "c"]])])) :=
  chunked_round_trip "s" 2
    [("S", [[Cell.str "H"], [Cell.str "a"], [Cell.str "b"], [Cell.str "c"]])]
    (by decide) (by decide) (by decide) (by decide)

